import Mathlib

/-!
Verification development for the SubTools subtitle pipeline.

Strings of the source are modelled as lists of characters, JS numbers as
rationals (a JS NaN outcome is modelled by the value none of an Option),
and operations of the source that can throw a runtime TypeError return an
Option whose none stands for the thrown error.  Asynchronous loops
(the retry loop of translateBatch and the batching loop of
splitIntoBatches, both of which can genuinely diverge) take an explicit
fuel argument counting loop iterations; a none result at every fuel
models divergence, and a some result at a finite fuel models termination.
-/

namespace SubTools

/-! ## JS string primitives (srtParser.ts helpers) -/

/-- JS whitespace test used by String.prototype.trim (space, tab, line
terminators, vertical tab, form feed). -/
def jsWs (c : Char) : Bool :=
  c == ' ' || c == '\t' || c == '\n' || c == '\r' || c == '\x0b' || c == '\x0c'

/-- Model of String.prototype.trim: drop leading and trailing whitespace. -/
def trim (s : List Char) : List Char :=
  ((s.dropWhile jsWs).reverse.dropWhile jsWs).reverse

/-- Model of data.replace over the global carriage-return pattern with the
empty string: remove every carriage return (srtParser.ts parseData). -/
def stripCR (s : List Char) : List Char := s.filter (fun c => !(c == '\r'))

/-- Model of String.prototype.replace with a one-character string pattern:
only the first occurrence of pat is replaced by repl. -/
def replaceFirst (pat : Char) (repl : List Char) : List Char → List Char
  | [] => []
  | c :: rest => if c == pat then repl ++ rest else c :: replaceFirst pat repl rest

/-- Model of String.prototype.split with a one-character separator. -/
def splitOnChar (sep : Char) : List Char → List (List Char)
  | [] => [[]]
  | c :: rest =>
    if c == sep then [] :: splitOnChar sep rest
    else
      match splitOnChar sep rest with
      | [] => [[c]]
      | p :: ps => (c :: p) :: ps

/-- srtParser.ts fixedStrDigit: force a string to a given number of digits,
truncating if long and padding with zeros (at the end or the start) if
short. -/
def fixedStrDigit (digitCount : ℕ) (str : List Char) (padEnd : Bool) : List Char :=
  if str.length = digitCount then str
  else if str.length > digitCount then str.take digitCount
  else if padEnd then str ++ List.replicate (digitCount - str.length) '0'
  else List.replicate (digitCount - str.length) '0' ++ str

/-- Numeric value of a digit string. -/
def natOfDigits (s : List Char) : ℕ := s.foldl (fun a c => 10 * a + (c.toNat - 48)) 0

/-- Model of JS parseInt with radix 10 on the strings reaching it here:
value of the longest leading digit run; none models the NaN result when no
digits lead the string (or the argument is the undefined value). -/
def parseIntJs (s : List Char) : Option ℤ :=
  let ds := s.takeWhile Char.isDigit
  if ds.isEmpty then none else some (natOfDigits ds)

/-- Model of the JS Number conversion on the strings reaching it here: the
empty string converts to 0, an all-digit string to its value, anything
else to NaN (modelled as none). -/
def jsNumber (s : List Char) : Option ℚ :=
  if s.isEmpty then some 0
  else if s.all Char.isDigit then some (natOfDigits s) else none

/-- Model of Math.round: round half toward positive infinity. -/
def jround (x : ℚ) : ℤ := ⌊x + 1/2⌋

/-- srtParser.ts timestampToSeconds.  The source destructures the comma
split into the time part and the milliseconds part, converts the
milliseconds with parseInt and the colon-separated fields with Number, and
returns hours*3600 + minutes*60 + seconds + milliseconds/1000 rounded to
three decimals.  A missing part or failed conversion yields a JS NaN
result, modelled as none; the function itself never throws. -/
def timestampToSeconds (srtTimestamp : List Char) : Option ℚ :=
  match splitOnChar ',' srtTimestamp with
  | timePart :: millisecondsPart :: _ =>
    match parseIntJs millisecondsPart, (splitOnChar ':' timePart).map jsNumber with
    | some milliseconds, some hours :: some minutes :: some seconds :: _ =>
      let totalSeconds : ℚ :=
        hours * 3600 + minutes * 60 + seconds + (milliseconds : ℚ) / 1000
      some ((jround (totalSeconds * 1000) : ℚ) / 1000)
    | _, _ => none
  | _ => none

/-- srtParser.ts correctFormat: replace the first period with a comma,
split into main time and milliseconds, force the milliseconds to exactly 3
digits (padding at the end) and hours, minutes, seconds to exactly 2
digits (padding at the start).  none models the TypeError the source
throws when the expected parts of the split are the undefined value. -/
def correctFormat (time : List Char) : Option (List Char) :=
  let formattedTime := replaceFirst '.' [','] time
  match splitOnChar ',' formattedTime with
  | mainTime :: msPart :: _ =>
    let milliseconds := fixedStrDigit 3 msPart true
    match splitOnChar ':' mainTime with
    | rawHours :: rawMinutes :: rawSeconds :: _ =>
      some (fixedStrDigit 2 rawHours false ++ ':' :: fixedStrDigit 2 rawMinutes false
        ++ ':' :: fixedStrDigit 2 rawSeconds false ++ ',' :: milliseconds)
    | _ => none
  | _ => none

/-! ## The timestamp regular expressions of srtParser.ts

The source splits the input with one of two global regular expressions,
digits, a newline, and two timestamps separated by an arrow, where the
millisecond separator sep is a comma (commaRegEx) or a period (dotRegEx).
The matcher below implements exactly that pattern at the head of a
character list; backtracking of the bounded quantifiers is equivalent to
the maximal-munch implementation used here because every bounded digit
group is followed by a non-digit literal requirement. -/

/-- Longest leading digit run (the greedy unbounded digit quantifier). -/
def takeDigits : List Char → List Char × List Char
  | [] => ([], [])
  | c :: rest =>
    if c.isDigit then
      let p := takeDigits rest
      (c :: p.1, p.2)
    else ([], c :: rest)

/-- Leading digit run of length at most n (greedy bounded digit
quantifier). -/
def takeUpTo (n : ℕ) : List Char → List Char × List Char
  | [] => ([], [])
  | c :: rest =>
    if 0 < n then
      if c.isDigit then
        let p := takeUpTo (n - 1) rest
        (c :: p.1, p.2)
      else ([], c :: rest)
    else ([], c :: rest)

/-- Consume an exact literal from the head of the input. -/
def expectLit : List Char → List Char → Option (List Char)
  | [], xs => some xs
  | _ :: _, [] => none
  | l :: ls, x :: xs => if x == l then expectLit ls xs else none

/-- Match one timestamp of the pattern at the head of the input: one or
two digits, a colon, two digits, a colon, two digits, the separator, one
to three digits.  Returns the matched characters and the rest. -/
def matchTs (sep : Char) (xs : List Char) : Option (List Char × List Char) :=
  let hp := takeUpTo 2 xs
  if hp.1.isEmpty then none
  else
    match expectLit [':'] hp.2 with
    | none => none
    | some r2 =>
      let mp := takeUpTo 2 r2
      if mp.1.length ≠ 2 then none
      else
        match expectLit [':'] mp.2 with
        | none => none
        | some r4 =>
          let sp := takeUpTo 2 r4
          if sp.1.length ≠ 2 then none
          else
            match expectLit [sep] sp.2 with
            | none => none
            | some r6 =>
              let msp := takeUpTo 3 r6
              if msp.1.isEmpty then none
              else some (hp.1 ++ ':' :: mp.1 ++ ':' :: sp.1 ++ sep :: msp.1, msp.2)

/-- The arrow literal between the two timestamps. -/
def arrowLit : List Char := ' ' :: '-' :: '-' :: '>' :: [' ']

/-- Match the full cue-boundary pattern at the head of the input: a digit
run, a newline, a timestamp, the arrow, a timestamp.  Returns the three
captured groups (index, start, end) and the rest of the input. -/
def matchAt (sep : Char) (xs : List Char) : Option (List Char × List Char × List Char × List Char) :=
  let dp := takeDigits xs
  if dp.1.isEmpty then none
  else
    match expectLit ['\n'] dp.2 with
    | none => none
    | some r1 =>
      match matchTs sep r1 with
      | none => none
      | some (t1, r2) =>
        match expectLit arrowLit r2 with
        | none => none
        | some r3 =>
          match matchTs sep r3 with
          | none => none
          | some (t2, r4) => some (dp.1, t1, t2, r4)

/-- Scanner of String.prototype.split with a global regular expression
holding three capture groups: scan left to right; at each position either
the pattern matches (emit the text before it and the three captures and
continue after the match) or the head character is kept as inter-match
text.  The fuel bounds the number of scanned positions; every match
consumes at least one character, so fuel equal to the input length always
suffices (the fuel-exhausted value is never reached from regexSplit). -/
def regexSplitGo (sep : Char) : ℕ → List Char → List Char → List (List Char)
  | fuel, xs, acc =>
    match xs with
    | [] => [acc.reverse]
    | c :: rest =>
      match fuel with
      | 0 => [acc.reverse ++ c :: rest]
      | f+1 =>
        match matchAt sep (c :: rest) with
        | some (a, t1, t2, rest') => acc.reverse :: a :: t1 :: t2 :: regexSplitGo sep f rest' []
        | none => regexSplitGo sep f rest (c :: acc)

/-- data.split(regex) for the two cue-boundary regular expressions. -/
def regexSplit (sep : Char) (data : List Char) : List (List Char) :=
  regexSplitGo sep data.length data []

/-- srtParser.ts parseData: strip carriage returns, split with the given
pattern, and drop the first element (the shift call). -/
def parseData (data : List Char) (sep : Char) : List (List Char) :=
  (regexSplit sep (stripCR data)).tail

/-- srtParser.ts SRTCaption record. -/
structure SRTCaption where
  id : List Char
  startTime : List Char
  startSeconds : Option ℚ
  endTime : List Char
  endSeconds : Option ℚ
  text : List Char
deriving DecidableEq, Repr

/-- The caption-building loop of srtParser.ts parse: consume the token
array four entries at a time (index, start, end, body).  none models the
TypeError the source throws when an entry of an incomplete final group is
the undefined value, or a TypeError from correctFormat. -/
def buildCaptions : List (List Char) → Option (List SRTCaption)
  | [] => some []
  | i0 :: i1 :: i2 :: i3 :: rest =>
    match correctFormat (trim i1), correctFormat (trim i2) with
    | some startTime, some endTime =>
      match buildCaptions rest with
      | some caps =>
        some ({ id := trim i0, startTime := startTime,
                startSeconds := timestampToSeconds startTime,
                endTime := endTime,
                endSeconds := timestampToSeconds endTime,
                text := trim i3 } :: caps)
      | none => none
    | _, _ => none
  | _ => none

/-- srtParser.ts parse: try the comma pattern, fall back to the period
pattern, return the empty list when both yield nothing, else build the
captions.  none models a thrown TypeError (the safety claim proves it
never occurs). -/
def parse (data : List Char) : Option (List SRTCaption) :=
  let dataArray :=
    let a := parseData data ','
    if a.isEmpty then parseData data '.' else a
  if dataArray.isEmpty then some []
  else buildCaptions dataArray

/-- srtParser.ts stringify: for each caption emit the id line, the
start-arrow-end line, the body with its first newline replaced by the
configured line terminator (String.prototype.replace with a string
pattern replaces only the first occurrence), then a blank separator
line. -/
def stringify (eol : List Char) : List SRTCaption → List Char
  | [] => []
  | caption :: rest =>
    caption.id ++ eol ++ caption.startTime ++ arrowLit ++ caption.endTime ++ eol
      ++ replaceFirst '\n' eol caption.text ++ eol ++ eol ++ stringify eol rest

/-- Head-digit test used when reasoning about greedy digit runs. -/
def headIsDigit : List Char → Bool
  | [] => false
  | c :: _ => c.isDigit

/-- The first capture group of the cue pattern: a non-empty digit run. -/
def IsIdTok (a : List Char) : Prop := a ≠ [] ∧ ∀ c ∈ a, c.isDigit = true

/-- A timestamp capture of the cue pattern: one or two digits, colon, two
digits, colon, two digits, the separator, one to three digits. -/
def IsTsTok (sep : Char) (t : List Char) : Prop :=
  ∃ h m s ms, t = h ++ ':' :: m ++ ':' :: s ++ sep :: ms ∧
    1 ≤ h.length ∧ h.length ≤ 2 ∧ m.length = 2 ∧ s.length = 2 ∧
    1 ≤ ms.length ∧ ms.length ≤ 3 ∧
    (∀ c ∈ h, c.isDigit = true) ∧ (∀ c ∈ m, c.isDigit = true) ∧
    (∀ c ∈ s, c.isDigit = true) ∧ (∀ c ∈ ms, c.isDigit = true)

/-- A canonical timestamp as produced by correctFormat: two digits,
colon, two digits, colon, two digits, comma, three digits. -/
def IsCanonTs (t : List Char) : Prop :=
  ∃ h m s ms, t = h ++ ':' :: m ++ ':' :: s ++ ',' :: ms ∧
    h.length = 2 ∧ m.length = 2 ∧ s.length = 2 ∧ ms.length = 3 ∧
    (∀ c ∈ h, c.isDigit = true) ∧ (∀ c ∈ m, c.isDigit = true) ∧
    (∀ c ∈ s, c.isDigit = true) ∧ (∀ c ∈ ms, c.isDigit = true)

/-- No suffix of s starts a cue-pattern match (hence, with matcher
monotonicity, no substring of s matches the pattern). -/
def NoMatchSub (sep : Char) (s : List Char) : Prop :=
  ∀ n, matchAt sep (s.drop n) = none

/-- Shape of the token array the splitter produces after the leading
chunk: groups of four (id capture, two timestamp captures, inter-match
body), the bodies being match-free contiguous pieces of the scanned
string xs0. -/
inductive TokGroups (sep : Char) (xs0 : List Char) : List (List Char) → Prop
  | nil : TokGroups sep xs0 []
  | grp {a t1 t2 body rest} : IsIdTok a → IsTsTok sep t1 → IsTsTok sep t2 →
      NoMatchSub sep body → (∃ m w, xs0.drop m = body ++ w) →
      TokGroups sep xs0 rest → TokGroups sep xs0 (a :: t1 :: t2 :: body :: rest)

/-- The well-formedness a caption produced by parse always enjoys: the
shape needed for the parse-stringify round trip. -/
def WFCaption (c : SRTCaption) : Prop :=
  IsIdTok c.id ∧ IsCanonTs c.startTime ∧ IsCanonTs c.endTime ∧
  c.startSeconds = timestampToSeconds c.startTime ∧
  c.endSeconds = timestampToSeconds c.endTime ∧
  trim c.text = c.text ∧ ('\r' ∉ c.text) ∧ NoMatchSub ',' c.text

/-- The token array produced by splitting the serialization of a
well-formed caption list with the comma pattern. -/
def TokensOf (l : List SRTCaption) : List (List Char) :=
  l.flatMap (fun c => [c.id, c.startTime, c.endTime, '\n' :: (c.text ++ '\n' :: ['\n'])])

/-- Replacement of every occurrence of a one-character pattern (what a
global-flag JS replace would do; used to state the serializer claim). -/
def replaceAll (pat : Char) (repl : List Char) : List Char → List Char
  | [] => []
  | c :: rest =>
    if c == pat then repl ++ replaceAll pat repl rest
    else c :: replaceAll pat repl rest

/-- Modelled from the spec: the serializer as the newline claim describes
it, with every internal newline of each caption body replaced by the
configured line terminator (the source replaces only the first). -/
def stringifySpec (eol : List Char) : List SRTCaption → List Char
  | [] => []
  | caption :: rest =>
    caption.id ++ eol ++ caption.startTime ++ arrowLit ++ caption.endTime ++ eol
      ++ replaceAll '\n' eol caption.text ++ eol ++ eol ++ stringifySpec eol rest

/-- A caption whose body holds two internal newlines (counterexample to
the full-conversion claim). -/
def capNl : SRTCaption :=
  ⟨"1".toList, "00:00:01,000".toList, none, "00:00:02,000".toList, none,
    ('a' :: '\n' :: 'b' :: '\n' :: ['c'])⟩

/-- A caption whose body holds exactly one internal newline. -/
def capOneNl : SRTCaption :=
  ⟨"1".toList, "00:00:01,000".toList, none, "00:00:02,000".toList, none,
    ('a' :: '\n' :: ['b'])⟩

/-! ## The batch scheduler (SRTTranslator of part_001) -/

/-- The translation-unit payload sent to the backend (id and text only). -/
structure SRTTranslateCaption where
  id : List Char
  text : List Char
deriving DecidableEq, Repr

/-- The injected backend.  The source passes a promise-returning function
of (captions, sourceLanguage, targetLanguage); here the hidden state
behind the promise is modelled by the extra round counter: the n-th call
a batch task makes receives round number n.  An error result models a
rejected promise (a backend hard failure), an ok result a resolved
response. -/
def SRTTranslateMethod (ε : Type) : Type :=
  ℕ → List SRTTranslateCaption → List Char → List Char → Except ε (List SRTTranslateCaption)

/-- The missing-set computation of translateBatch: the units of the
original batch whose id appears nowhere in the accumulated results. -/
def missingTranslations (captions translated : List SRTTranslateCaption) :
    List SRTTranslateCaption :=
  captions.filter (fun caption => (translated.find? (fun c => c.id == caption.id)).isNone)

/-- The while loop of translateBatch: while the missing set (recomputed
against the original batch, with membership tested against all
accumulated results) is non-empty, call the backend with the missing
units and append the response.  The fuel counts loop iterations; ok none
models an execution that is still looping after fuel iterations. -/
def translateBatchLoop (tm : SRTTranslateMethod ε) (src tgt : List Char)
    (captions : List SRTTranslateCaption) :
    List SRTTranslateCaption → ℕ → ℕ → Except ε (Option (List SRTTranslateCaption))
  | _, _, 0 => .ok none
  | translated, round, fuel+1 =>
    let missing := missingTranslations captions translated
    if missing.isEmpty then .ok (some translated)
    else
      match tm round missing src tgt with
      | .error e => .error e
      | .ok retried => translateBatchLoop tm src tgt captions (translated ++ retried) (round+1) fuel

/-- SRTTranslator.translateBatch: one backend call with the full batch,
then the retry loop on the missing units. -/
def translateBatch (tm : SRTTranslateMethod ε) (src tgt : List Char)
    (captions : List SRTTranslateCaption) (fuel : ℕ) :
    Except ε (Option (List SRTTranslateCaption)) :=
  match tm 0 captions src tgt with
  | .error e => .error e
  | .ok translatedCaptions => translateBatchLoop tm src tgt captions translatedCaptions 1 fuel

/-- Model of Array.prototype.slice with two integer arguments: negative
indices count from the end, indices are clamped to the array bounds. -/
def jsSlice (arr : List α) (start stop : ℤ) : List α :=
  let len : ℤ := arr.length
  let s := if start < 0 then max (len + start) 0 else min start len
  let e := if stop < 0 then max (len + stop) 0 else min stop len
  (arr.drop s.toNat).take (e - s).toNat

/-- The loop of SRTTranslator.splitIntoBatches: starting from index i,
while i is below the array length, push slice(i, i + batchSize) and
advance i by batchSize.  The index is an integer exactly as in the
source, so a batchSize of zero or below never advances past a non-empty
array: the fuel counts loop iterations and none models divergence. -/
def splitLoop (arr : List α) (batchSize : ℤ) : ℤ → ℕ → Option (List (List α))
  | _, 0 => none
  | i, fuel+1 =>
    if i < (arr.length : ℤ) then
      match splitLoop arr batchSize (i + batchSize) fuel with
      | none => none
      | some bs => some (jsSlice arr i (i + batchSize) :: bs)
    else some []

/-- SRTTranslator.splitIntoBatches. -/
def splitIntoBatches (arr : List α) (batchSize : ℤ) (fuel : ℕ) : Option (List (List α)) :=
  splitLoop arr batchSize 0 fuel

/-- Sequential model of the resolving path of
SRTTranslator.limitConcurrentPromises: the observable outcome of running
every batch task and collecting the flattened results (the source pushes
each resolved task result into one shared results array; the admission
gate that bounds how many tasks run at once is modelled separately by
LimStep below, since it affects timing but not the collected value).
This definition models a task rejection as rejecting the whole call,
which the source guarantees only while the rejected task promise is
still in the executing set at an awaited race or at the final
Promise.all; when its finally handler deletes it from the set first, the
source instead resolves without that batch's results.  That
swallowed-rejection path is modelled by limitConcurrentPromisesObs and
computed exactly by the event-loop model below; the present definition
is used only for properties of resolving runs, which the collapse leaves
unchanged. -/
def limitConcurrentPromises (tm : SRTTranslateMethod ε) (src tgt : List Char)
    (batches : List (List SRTTranslateCaption)) (fuel : ℕ) :
    Except ε (Option (List SRTTranslateCaption)) :=
  match batches with
  | [] => .ok (some [])
  | b :: bs =>
    match translateBatch tm src tgt b fuel with
    | .error e => .error e
    | .ok none => .ok none
    | .ok (some r) =>
      match limitConcurrentPromises tm src tgt bs fuel with
      | .error e => .error e
      | .ok none => .ok none
      | .ok (some rs) => .ok (some (r ++ rs))

/-- The observable signals of SRTTranslator.translate.  The error signal
carries the id embedded in the emitted message. -/
inductive TranslateEvent
  | start (captions batches : ℕ)
  | finish
  | error (id : List Char)
deriving DecidableEq, Repr

/-- The outcome of a translate call: a resolved caption list, a rejection
with a backend error, or an execution still running at the given fuel. -/
inductive TranslateOutcome (ε : Type)
  | ok (captions : List SRTCaption)
  | fail (e : ε)
  | fuelOut
deriving DecidableEq, Repr

/-- SRTTranslator.translate: project the captions to translation units,
split into batches, emit the start signal, run the batch tasks, emit the
finish signal, flatten, and reassemble by id over the original caption
order, emitting an error signal (and keeping the original text) for any
id without a translated unit.  The returned event list is in emission
order. -/
def translate (tm : SRTTranslateMethod ε) (batchSize : ℤ) (src tgt : List Char)
    (captions : List SRTCaption) (fuel : ℕ) :
    List TranslateEvent × TranslateOutcome ε :=
  let translateCaptions : List SRTTranslateCaption :=
    captions.map (fun caption => ⟨caption.id, caption.text⟩)
  match splitIntoBatches translateCaptions batchSize fuel with
  | none => ([], .fuelOut)
  | some batches =>
    let startEvent := TranslateEvent.start captions.length batches.length
    match limitConcurrentPromises tm src tgt batches fuel with
    | .error e => ([startEvent], .fail e)
    | .ok none => ([startEvent], .fuelOut)
    | .ok (some translatedCaptions) =>
      let out := captions.map (fun caption =>
        match translatedCaptions.find? (fun tc => tc.id == caption.id) with
        | some translatedCaption => { caption with text := translatedCaption.text }
        | none => caption)
      let errorEvents := (captions.filter (fun caption =>
          (translatedCaptions.find? (fun tc => tc.id == caption.id)).isNone)).map
        (fun caption => TranslateEvent.error caption.id)
      (startEvent :: TranslateEvent.finish :: errorEvents, .ok out)

/-! ## The admission gate of limitConcurrentPromises

The source keeps an executing set of in-flight task promises.  The main
loop starts tasks in order; after starting one, if the executing set has
reached concurrentRequests it awaits a race of the executing promises,
and a finally handler removes each promise from the set when it settles
(the handler is attached before any later race, so the settled promise is
removed before the loop resumes).  The transition system below models
exactly this discipline: a start step is possible only while the loop is
not parked on a race, and the loop parks exactly when the in-flight count
has reached the bound; a complete step settles one in-flight task and
unparks the loop. -/

structure LimState where
  pending : ℕ
  running : ℕ
  blocked : Bool
deriving DecidableEq, Repr

inductive LimStep (maxConcurrency : ℕ) : LimState → LimState → Prop
  | start (p r : ℕ) :
      LimStep maxConcurrency ⟨p+1, r, false⟩ ⟨p, r+1, decide (maxConcurrency ≤ r+1)⟩
  | complete (p r : ℕ) (b : Bool) :
      LimStep maxConcurrency ⟨p, r+1, b⟩ ⟨p, r, false⟩

/-- States reachable while running n batch tasks under the gate. -/
def LimReachable (maxConcurrency n : ℕ) (s : LimState) : Prop :=
  Relation.ReflTransGen (LimStep maxConcurrency) ⟨n, 0, false⟩ s

/-! ## Backends used by the concrete witnesses -/

/-- A backend stub that echoes every requested unit unchanged. -/
def tmEcho : SRTTranslateMethod Unit := fun _ units _ _ => .ok units

/-- A backend stub that always rejects with a fixed error. -/
def tmFailing : SRTTranslateMethod (List Char) := fun _ _ _ _ => .error ('b' :: 'o' :: ['o', 'm'])

/-- The translated text returned by the omitting backend stub of the
retry-convergence witness. -/
def trUp (i : List Char) : List Char := 'T' :: i

/-- A backend stub that, within each batch task, omits the units with id
x from its first K responses and translates every requested unit (with
trUp) from round K on. -/
def tmOmit (K : ℕ) (x : List Char) : SRTTranslateMethod Unit := fun round units _ _ =>
  .ok ((if round < K then units.filter (fun u => !(u.id == x)) else units).map
    (fun u => ⟨u.id, trUp u.id⟩))

/-- A concrete caption used by several witnesses. -/
def capA : SRTCaption :=
  ⟨"1".toList, "00:00:01,000".toList, some 1, "00:00:02,000".toList, some 2, "Hello".toList⟩

/-- A concrete caption with id 2 used by the retry-convergence witness. -/
def capB : SRTCaption :=
  ⟨'2' :: [], "00:00:01,000".toList, some 1, "00:00:02,000".toList, some 2, "Hola".toList⟩

/-- SRTTranslator.limitConcurrentPromises with the fate of every task
rejection made explicit.  The source deletes each settled task promise
from the executing set through its finally handler; a rejection reaches
the caller only while the rejected promise is still in the set at an
awaited race or in the final Promise.all snapshot — otherwise the
deletion has already removed it and the call resolves without that
batch's results (the swallowed-rejection path).  observed i records that
timing fact for the task at position i: true when the rejection is
awaited (the call rejects with it), false when the deletion wins (the
rejection is swallowed).  Which value is realized is fixed by the
microtask schedule and computed exactly by the event-loop model below:
an immediately rejecting task below the concurrency cap is deleted three
microtasks after its backend promise settles while each loop iteration
costs one microtask (the awaited async enqueue), so the deletion wins
exactly when at least two further batches follow the failed one; with at
most one further batch, or when the rejection is awaited at the cap's
race, it propagates. -/
def limitConcurrentPromisesObs (observed : ℕ → Bool) (tm : SRTTranslateMethod ε)
    (src tgt : List Char) :
    ℕ → List (List SRTTranslateCaption) → ℕ → Except ε (Option (List SRTTranslateCaption))
  | _, [], _ => .ok (some [])
  | i, b :: bs, fuel =>
    match translateBatch tm src tgt b fuel with
    | .error e =>
      if observed i then .error e
      else limitConcurrentPromisesObs observed tm src tgt (i+1) bs fuel
    | .ok none => .ok none
    | .ok (some r) =>
      match limitConcurrentPromisesObs observed tm src tgt (i+1) bs fuel with
      | .error e => .error e
      | .ok none => .ok none
      | .ok (some rs) => .ok (some (r ++ rs))

/-- SRTTranslator.translate over the observation-refined runner:
identical to translate except that the batch tasks run under
limitConcurrentPromisesObs, so a swallowed rejection lets the call
complete without the failed batch's results, as in the source. -/
def translateObs (observed : ℕ → Bool) (tm : SRTTranslateMethod ε) (batchSize : ℤ)
    (src tgt : List Char) (captions : List SRTCaption) (fuel : ℕ) :
    List TranslateEvent × TranslateOutcome ε :=
  let translateCaptions : List SRTTranslateCaption :=
    captions.map (fun caption => ⟨caption.id, caption.text⟩)
  match splitIntoBatches translateCaptions batchSize fuel with
  | none => ([], .fuelOut)
  | some batches =>
    let startEvent := TranslateEvent.start captions.length batches.length
    match limitConcurrentPromisesObs observed tm src tgt 0 batches fuel with
    | .error e => ([startEvent], .fail e)
    | .ok none => ([startEvent], .fuelOut)
    | .ok (some translatedCaptions) =>
      let out := captions.map (fun caption =>
        match translatedCaptions.find? (fun tc => tc.id == caption.id) with
        | some translatedCaption => { caption with text := translatedCaption.text }
        | none => caption)
      let errorEvents := (captions.filter (fun caption =>
          (translatedCaptions.find? (fun tc => tc.id == caption.id)).isNone)).map
        (fun caption => TranslateEvent.error caption.id)
      (startEvent :: TranslateEvent.finish :: errorEvents, .ok out)

/-! ## The event loop of limitConcurrentPromises

The admission loop of the source (part_001:142-174) is asynchronous: the
enqueue helper creates the task promise
p().then(result => results.push(...result)), adds it to the executing
set, parks on Promise.race(executing) when the set has reached
concurrentRequests, and only then attaches the finally handler that
deletes the promise from the set once it settles; the main loop awaits
enqueue once per batch, then awaits Promise.all(executing) and resolves
with the shared results array.  Whether a rejected task makes the call
reject therefore depends on the microtask queue: the rejection is seen
only if the rejected promise is still a member of an awaited race or of
the Promise.all snapshot, and the finally deletion can remove it first.
The machine below executes that discipline literally for a backend whose
promise settles on creation: one FIFO queue of promise reactions, one
job per await resumption.  stepT resumes the translateBatch coroutine of
a task after one backend await (one job per retry round of the while
loop); settleP runs the then-callback pushing the results, or propagates
a rejection; finallyRun is the deletion handler; raceNotify and
allNotify are the membership notifications of the pending race and of
the final Promise.all; enqueueResume resumes a parked enqueue, attaching
the finally handler only then, as the source does; loopNext resumes the
main loop after its awaited enqueue; limitResume resumes
limitConcurrentPromises after the final await, resolving with the
results collected so far — without the results of any task whose
rejection was deleted from the set before the snapshot. -/

/-- A reaction registered on a task promise: its finally deletion
handler, a pending race of a given round, or the final Promise.all. -/
inductive MSub
  | subFinally
  | subRace (rid : ℕ)
  | subAll
deriving DecidableEq, Repr

/-- One queued microtask of the event loop. -/
inductive MJob (ε : Type)
  | stepT (i round : ℕ) (translated pendingUnits : List SRTTranslateCaption)
  | settleP (i : ℕ) (o : Except ε (List SRTTranslateCaption))
  | finallyRun (i : ℕ)
  | raceNotify (rid : ℕ) (failed : Option ε)
  | enqueueResume (k : ℕ) (failed : Option ε)
  | loopNext (k : ℕ)
  | allNotify (failed : Option ε)
  | limitResume (failed : Option ε)
deriving Repr

/-- The event-loop state: the FIFO microtask queue, the executing set in
insertion order, the shared results array, the settled task promises
(none marks fulfilment, some e a rejection), the reactions registered on
still-pending task promises, the race bookkeeping (next round id and the
active parked race, if any), and the count of Promise.all members still
pending fulfilment. -/
structure MState (ε : Type) where
  queue : List (MJob ε)
  executing : List ℕ
  results : List SRTTranslateCaption
  settled : List (ℕ × Option ε)
  subs : List (ℕ × List MSub)
  raceId : ℕ
  raceActive : Option (ℕ × ℕ)
  allRemaining : Option ℕ
deriving Repr

/-- The fixed data of a run: the injected backend, the languages, the
batches, and concurrentRequests. -/
structure MEnv (ε : Type) where
  tm : SRTTranslateMethod ε
  src : List Char
  tgt : List Char
  batches : List (List SRTTranslateCaption)
  cap : ℕ

/-- The notification job a registered reaction receives when its task
promise settles. -/
def subJob (s : MSub) (i : ℕ) (failed : Option ε) : MJob ε :=
  match s with
  | .subFinally => .finallyRun i
  | .subRace rid => .raceNotify rid failed
  | .subAll => .allNotify failed

/-- Settle the task promise i: record the outcome and queue one
notification job per registered reaction, in registration order. -/
def msettle (S : MState ε) (i : ℕ) (failed : Option ε) : MState ε :=
  let pend := ((S.subs.find? (fun p => p.1 == i)).map Prod.snd).getD []
  { S with settled := (i, failed) :: S.settled,
           subs := S.subs.filter (fun p => !(p.1 == i)),
           queue := S.queue ++ pend.map (fun s => subJob s i failed) }

/-- Register a reaction on the task promise i: queued at once when the
promise has already settled, pended otherwise. -/
def mattach (S : MState ε) (i : ℕ) (s : MSub) : MState ε :=
  match S.settled.find? (fun p => p.1 == i) with
  | some pr => { S with queue := S.queue ++ [subJob s i pr.2] }
  | none =>
    match S.subs.find? (fun p => p.1 == i) with
    | some _ => { S with subs := S.subs.map (fun p => if p.1 == i then (p.1, p.2 ++ [s]) else p) }
    | none => { S with subs := (i, [s]) :: S.subs }

/-- The synchronous head of enqueue for batch k: call the task factory —
translateBatch runs to its first backend await, queueing its resumption —
and add the task promise to the executing set. -/
def mstartTask (env : MEnv ε) (S : MState ε) (k : ℕ) : MState ε :=
  { S with queue := S.queue ++ [.stepT k 0 [] (env.batches.getD k [])],
           executing := S.executing ++ [k] }

/-- One main-loop iteration: below the cap, enqueue batch k, attach its
finally handler and queue the loop resumption; at the cap, enqueue batch
k and park on a race subscribed to every executing member; past the last
batch, await Promise.all over the snapshot of the executing set. -/
def miter (env : MEnv ε) (S : MState ε) (k : ℕ) : MState ε :=
  if k < env.batches.length then
    let S1 := mstartTask env S k
    if env.cap ≤ S1.executing.length then
      let rid := S1.raceId
      let S2 := { S1 with raceId := rid + 1, raceActive := some (rid, k) }
      S2.executing.foldl (fun T j => mattach T j (.subRace rid)) S2
    else
      let S2 := mattach S1 k .subFinally
      { S2 with queue := S2.queue ++ [.loopNext k] }
  else
    if S.executing.isEmpty then
      { S with queue := S.queue ++ [.limitResume none] }
    else
      let S2 := { S with allRemaining := some S.executing.length }
      S2.executing.foldl (fun T j => mattach T j .subAll) S2

/-- The result of one microtask: the call settles, or the loop goes on. -/
inductive MRes (ε : Type)
  | halt (o : Except ε (List SRTTranslateCaption))
  | cont (S : MState ε)

/-- Run one microtask job. -/
def mjob (env : MEnv ε) (S : MState ε) : MJob ε → MRes ε
  | .stepT i round translated pending =>
    match env.tm round pending env.src env.tgt with
    | .error e => .cont { S with queue := S.queue ++ [.settleP i (.error e)] }
    | .ok resp =>
      let translated2 := translated ++ resp
      let missing := missingTranslations (env.batches.getD i []) translated2
      if missing.isEmpty then
        .cont { S with queue := S.queue ++ [.settleP i (.ok translated2)] }
      else
        .cont { S with queue := S.queue ++ [.stepT i (round + 1) translated2 missing] }
  | .settleP i o =>
    match o with
    | .ok w => .cont (msettle { S with results := S.results ++ w } i none)
    | .error e => .cont (msettle S i (some e))
  | .finallyRun i => .cont { S with executing := S.executing.erase i }
  | .raceNotify rid failed =>
    match S.raceActive with
    | some pr =>
      if pr.1 == rid then
        .cont { S with raceActive := none, queue := S.queue ++ [.enqueueResume pr.2 failed] }
      else .cont S
    | none => .cont S
  | .enqueueResume k failed =>
    match failed with
    | some e => .halt (.error e)
    | none =>
      let S1 := mattach S k .subFinally
      .cont { S1 with queue := S1.queue ++ [.loopNext k] }
  | .loopNext k => .cont (miter env S (k + 1))
  | .allNotify failed =>
    match S.allRemaining with
    | none => .cont S
    | some r =>
      match failed with
      | some e => .cont { S with allRemaining := none, queue := S.queue ++ [.limitResume (some e)] }
      | none =>
        if r ≤ 1 then .cont { S with allRemaining := none, queue := S.queue ++ [.limitResume none] }
        else .cont { S with allRemaining := some (r - 1) }
  | .limitResume failed =>
    match failed with
    | some e => .halt (.error e)
    | none => .halt (.ok S.results)

/-- Drain the microtask queue; the fuel counts microtasks and none models
a run that is still going (a diverging retry loop). -/
def mrun (env : MEnv ε) : ℕ → MState ε → Option (Except ε (List SRTTranslateCaption))
  | 0, _ => none
  | fuel + 1, S =>
    match S.queue with
    | [] => none
    | j :: rest =>
      match mjob env { S with queue := rest } j with
      | .halt o => some o
      | .cont S2 => mrun env fuel S2

/-- limitConcurrentPromises under the event loop: the synchronous first
iteration, then the drained queue. -/
def limitRun (env : MEnv ε) (fuel : ℕ) : Option (Except ε (List SRTTranslateCaption)) :=
  mrun env fuel (miter env ⟨[], [], [], [], [], 0, none, none⟩ 0)

/-- SRTTranslator.translate with the batch tasks run under the event
loop: the cap is concurrentRequests, and the post-await tail (finish
signal, flatten, reassembly with error signals and fallback text) is the
source's, identical to translate. -/
def translateRun (tm : SRTTranslateMethod ε) (batchSize : ℤ) (src tgt : List Char)
    (captions : List SRTCaption) (cap fuel : ℕ) :
    List TranslateEvent × TranslateOutcome ε :=
  let translateCaptions : List SRTTranslateCaption :=
    captions.map (fun caption => ⟨caption.id, caption.text⟩)
  match splitIntoBatches translateCaptions batchSize fuel with
  | none => ([], .fuelOut)
  | some batches =>
    let startEvent := TranslateEvent.start captions.length batches.length
    match limitRun ⟨tm, src, tgt, batches, cap⟩ fuel with
    | none => ([startEvent], .fuelOut)
    | some (.error e) => ([startEvent], .fail e)
    | some (.ok translatedCaptions) =>
      let out := captions.map (fun caption =>
        match translatedCaptions.find? (fun tc => tc.id == caption.id) with
        | some translatedCaption => { caption with text := translatedCaption.text }
        | none => caption)
      let errorEvents := (captions.filter (fun caption =>
          (translatedCaptions.find? (fun tc => tc.id == caption.id)).isNone)).map
        (fun caption => TranslateEvent.error caption.id)
      (startEvent :: TranslateEvent.finish :: errorEvents, .ok out)

/-- A backend stub that rejects every call asking for id 1 and resolves
every other call with the requested units translated. -/
def tmRejectFirst : SRTTranslateMethod (List Char) := fun _ units _ _ =>
  if units.any (fun u => u.id == "1".toList) then .error ('b' :: 'o' :: ['o', 'm'])
  else .ok (units.map (fun u => ⟨u.id, 'T' :: u.text⟩))

/-- Concrete captions for the swallowed-rejection scenarios. -/
def capF1 : SRTCaption :=
  ⟨['1'], "00:00:01,000".toList, none, "00:00:02,000".toList, none, ['a']⟩

def capF2 : SRTCaption :=
  ⟨['2'], "00:00:01,000".toList, none, "00:00:02,000".toList, none, ['b']⟩

def capF3 : SRTCaption :=
  ⟨['3'], "00:00:01,000".toList, none, "00:00:02,000".toList, none, ['c']⟩

def capF4 : SRTCaption :=
  ⟨['4'], "00:00:01,000".toList, none, "00:00:02,000".toList, none, ['d']⟩


/-! ## Lemmas about the batch scheduler -/

theorem translate_ok_inv {ε} {tm : SRTTranslateMethod ε} {batchSize : ℤ} {src tgt : List Char}
    {captions : List SRTCaption} {fuel : ℕ} {evts : List TranslateEvent} {out : List SRTCaption}
    (h : translate tm batchSize src tgt captions fuel = (evts, .ok out)) :
    ∃ batches T,
      splitIntoBatches (captions.map (fun c => ⟨c.id, c.text⟩)) batchSize fuel = some batches ∧
      limitConcurrentPromises tm src tgt batches fuel = .ok (some T) ∧
      out = captions.map (fun caption =>
        match T.find? (fun tc => tc.id == caption.id) with
        | some tc => { caption with text := tc.text }
        | none => caption) ∧
      evts = TranslateEvent.start captions.length batches.length :: TranslateEvent.finish ::
        (captions.filter (fun caption => (T.find? (fun tc => tc.id == caption.id)).isNone)).map
          (fun caption => TranslateEvent.error caption.id) := by
  unfold translate at h
  dsimp only at h
  split at h
  · exact absurd (congrArg Prod.snd h) (by simp)
  · rename_i batches hsp
    split at h
    · exact absurd (congrArg Prod.snd h) (by simp)
    · exact absurd (congrArg Prod.snd h) (by simp)
    · rename_i T hlim
      obtain ⟨h1, h2⟩ := Prod.mk.injEq .. ▸ h
      exact ⟨batches, T, hsp, hlim, (TranslateOutcome.ok.injEq .. ▸ h2).symm, h1.symm⟩

/-- C1: a completed translate call returns one output caption per input
caption, in order, with id and all four timing fields copied unchanged;
only the text may differ. -/
theorem c1_translate_preserves_ids {ε} (tm : SRTTranslateMethod ε) (batchSize : ℤ)
    (src tgt : List Char) (captions : List SRTCaption) (fuel : ℕ)
    {evts : List TranslateEvent} {out : List SRTCaption}
    (h : translate tm batchSize src tgt captions fuel = (evts, .ok out)) :
    out.length = captions.length ∧
    ∀ i (hi : i < out.length) (hj : i < captions.length),
      (out.get ⟨i, hi⟩).id = (captions.get ⟨i, hj⟩).id ∧
      (out.get ⟨i, hi⟩).startTime = (captions.get ⟨i, hj⟩).startTime ∧
      (out.get ⟨i, hi⟩).startSeconds = (captions.get ⟨i, hj⟩).startSeconds ∧
      (out.get ⟨i, hi⟩).endTime = (captions.get ⟨i, hj⟩).endTime ∧
      (out.get ⟨i, hi⟩).endSeconds = (captions.get ⟨i, hj⟩).endSeconds := by
  obtain ⟨batches, T, hsp, hlim, hout, hevts⟩ := translate_ok_inv h
  subst hout
  refine ⟨by simp, ?_⟩
  intro i hi hj
  simp only [List.get_eq_getElem, List.getElem_map]
  split <;> simp

theorem c1_witness :
    ([capA] : List SRTCaption).length = [capA].length ∧
    ∀ i (hi : i < ([capA] : List SRTCaption).length) (hj : i < ([capA] : List SRTCaption).length),
      (([capA] : List SRTCaption).get ⟨i, hi⟩).id = (([capA] : List SRTCaption).get ⟨i, hj⟩).id ∧
      (([capA] : List SRTCaption).get ⟨i, hi⟩).startTime = (([capA] : List SRTCaption).get ⟨i, hj⟩).startTime ∧
      (([capA] : List SRTCaption).get ⟨i, hi⟩).startSeconds = (([capA] : List SRTCaption).get ⟨i, hj⟩).startSeconds ∧
      (([capA] : List SRTCaption).get ⟨i, hi⟩).endTime = (([capA] : List SRTCaption).get ⟨i, hj⟩).endTime ∧
      (([capA] : List SRTCaption).get ⟨i, hi⟩).endSeconds = (([capA] : List SRTCaption).get ⟨i, hj⟩).endSeconds :=
  c1_translate_preserves_ids tmEcho 500 "en".toList "nl".toList [capA] 10 rfl

/-- With a non-positive batch size the loop index never advances past a
position below the array length, so the batching loop never finishes. -/
theorem splitLoop_nonpos_none {α} (arr : List α) (batchSize : ℤ) (hb : batchSize ≤ 0) :
    ∀ (fuel : ℕ) (i : ℤ), i < (arr.length : ℤ) → splitLoop arr batchSize i fuel = none := by
  intro fuel
  induction fuel with
  | zero => intro i _; rfl
  | succ n ih =>
    intro i hi
    unfold splitLoop
    rw [if_pos hi, ih (i + batchSize) (by omega)]

/-- Slicing from a valid index with a positive width is take after drop. -/
theorem jsSlice_take {α} (arr : List α) (i : ℤ) (b : ℕ) (h0 : 0 ≤ i)
    (hlen : i < (arr.length : ℤ)) :
    jsSlice arr i (i + b) = (arr.drop i.toNat).take b := by
  unfold jsSlice
  dsimp only
  rw [if_neg (by omega), if_neg (by omega), min_eq_left (le_of_lt hlen)]
  rcases le_or_lt (i + (b : ℤ)) (arr.length : ℤ) with hle | hgt
  · rw [min_eq_left hle]
    congr 1
    omega
  · rw [min_eq_right (le_of_lt hgt)]
    have h1 : ((arr.length : ℤ) - i).toNat = (arr.drop i.toNat).length := by
      simp [List.length_drop]
      omega
    rw [h1, List.take_length, List.take_of_length_le (by simp [List.length_drop]; omega)]

/-- Arithmetic step for the ceiling batch count. -/
theorem ceil_div_step (m b : ℕ) (hb : 1 ≤ b) (hm : 1 ≤ m) :
    (m - b + b - 1) / b + 1 = (m + b - 1) / b := by
  have key : m + b - 1 = (m - 1) + b := by omega
  rw [key, Nat.add_div_right _ (by omega)]
  rcases le_or_lt b m with hbm | hbm
  · have h2 : m - b + b - 1 = m - 1 := by omega
    rw [h2]
  · have h1 : m - b + b - 1 = b - 1 := by omega
    rw [h1, Nat.div_eq_of_lt (by omega), Nat.div_eq_of_lt (by omega)]

/-- Main characterization of the batching loop for positive batch sizes:
it terminates with enough fuel, the batches concatenate back to the
suffix being split, the batch count is the ceiling of the remaining
length over the batch size, and every batch but the last is full. -/
theorem splitLoop_pos {α} (arr : List α) (b : ℕ) (hb : 1 ≤ b) :
    ∀ (fuel : ℕ) (i : ℤ), 0 ≤ i → arr.length - i.toNat < fuel →
    ∃ bs, splitLoop arr (b : ℤ) i fuel = some bs ∧
      bs.flatten = arr.drop i.toNat ∧
      bs.length = (arr.length - i.toNat + b - 1) / b ∧
      (∀ x ∈ bs.dropLast, x.length = b) := by
  intro fuel
  induction fuel with
  | zero => intro i _ hf; omega
  | succ n ih =>
    intro i h0 hf
    by_cases hi : i < (arr.length : ℤ)
    · have h0' : 0 ≤ i + (b : ℤ) := by omega
      have htn : (i + (b : ℤ)).toNat = i.toNat + b := by omega
      have hmeas : arr.length - (i + (b : ℤ)).toNat < n := by omega
      obtain ⟨bs, hbs, hflat, hlen, hlast⟩ := ih (i + b) h0' hmeas
      rw [htn] at hflat hlen
      have heq : splitLoop arr (b : ℤ) i (n+1) =
          some (jsSlice arr i (i + b) :: bs) := by
        unfold splitLoop
        rw [if_pos hi, hbs]
      refine ⟨jsSlice arr i (i + b) :: bs, heq, ?_, ?_, ?_⟩
      · rw [jsSlice_take arr i b h0 hi]
        simp only [List.flatten_cons, hflat]
        rw [← List.drop_drop]
        exact List.take_append_drop b (arr.drop i.toNat)
      · simp only [List.length_cons, hlen]
        have hsub : arr.length - (i.toNat + b) = (arr.length - i.toNat) - b := by omega
        rw [hsub]
        exact ceil_div_step (arr.length - i.toNat) b hb (by omega)
      · rcases bs with _ | ⟨bhd, btl⟩
        · intro x hx
          simp at hx
        · have hrest : 1 ≤ arr.length - (i.toNat + b) := by
            by_contra hc
            push_neg at hc
            have h00 : arr.length - (i.toNat + b) = 0 := by omega
            rw [h00] at hlen
            have hz : (0 + b - 1) / b = 0 := by
              rw [Nat.zero_add]
              exact Nat.div_eq_of_lt (by omega)
            rw [hz] at hlen
            simp at hlen
          intro x hx
          rw [List.dropLast_cons_of_ne_nil (List.cons_ne_nil _ _)] at hx
          rcases List.mem_cons.mp hx with hx1 | hx2
          · subst hx1
            rw [jsSlice_take arr i b h0 hi]
            simp [List.length_take, List.length_drop]
            omega
          · exact hlast x hx2
    · refine ⟨[], ?_, ?_, ?_, ?_⟩
      · unfold splitLoop
        rw [if_neg hi]
      · exact (List.drop_eq_nil_of_le (by omega)).symm
      · have h00 : arr.length - i.toNat = 0 := by omega
        rw [h00]
        simp
        exact (Nat.div_eq_of_lt (by omega)).symm
      · intro x hx
        simp at hx

/-- C6: for every positive batch size b and every unit list, the batching
step terminates and yields exactly the ceiling of length over b many
batches, all full except possibly the last, whose concatenation in order
is the original list. -/
theorem c6_batching_determinism (b : ℕ) (hb : 1 ≤ b) (arr : List SRTTranslateCaption) :
    ∃ bs, splitIntoBatches arr (b : ℤ) (arr.length + 1) = some bs ∧
      bs.length = (arr.length + b - 1) / b ∧
      (∀ x ∈ bs.dropLast, x.length = b) ∧
      bs.flatten = arr := by
  obtain ⟨bs, hbs, hflat, hlen, hlast⟩ :=
    splitLoop_pos arr b hb (arr.length + 1) 0 (by omega) (by omega)
  refine ⟨bs, hbs, ?_, hlast, ?_⟩
  · rw [hlen]
    simp
  · rw [hflat]
    rfl

theorem c6_witness :
    ∃ bs, splitIntoBatches
        ([⟨"1".toList, "a".toList⟩, ⟨"2".toList, "b".toList⟩, ⟨"3".toList, "c".toList⟩,
          ⟨"4".toList, "d".toList⟩, ⟨"5".toList, "e".toList⟩] : List SRTTranslateCaption)
        (2 : ℤ) 6 = some bs ∧
      bs.length = 3 ∧
      (∀ x ∈ bs.dropLast, x.length = 2) ∧
      bs.flatten = [⟨"1".toList, "a".toList⟩, ⟨"2".toList, "b".toList⟩, ⟨"3".toList, "c".toList⟩,
          ⟨"4".toList, "d".toList⟩, ⟨"5".toList, "e".toList⟩] :=
  c6_batching_determinism 2 (by omega)
    [⟨"1".toList, "a".toList⟩, ⟨"2".toList, "b".toList⟩, ⟨"3".toList, "c".toList⟩,
     ⟨"4".toList, "d".toList⟩, ⟨"5".toList, "e".toList⟩]

/-- Any terminating run of the batching loop from a valid index
concatenates back to the suffix being split (holds for every batch size
on which the loop can in fact finish). -/
theorem splitLoop_flatten {α} (arr : List α) (batchSize : ℤ) :
    ∀ (fuel : ℕ) (i : ℤ) (bs : List (List α)), 0 ≤ i →
      splitLoop arr batchSize i fuel = some bs → bs.flatten = arr.drop i.toNat := by
  intro fuel
  induction fuel with
  | zero => intro i bs _ h; exact absurd h (by simp [splitLoop])
  | succ n ih =>
    intro i bs h0 h
    unfold splitLoop at h
    by_cases hi : i < (arr.length : ℤ)
    · rw [if_pos hi] at h
      have hb : 1 ≤ batchSize := by
        by_contra hc
        push_neg at hc
        rw [splitLoop_nonpos_none arr batchSize (by omega) n (i + batchSize) (by omega)] at h
        exact absurd h (by simp)
      rcases hrec : splitLoop arr batchSize (i + batchSize) n with _ | bs'
      · rw [hrec] at h
        exact absurd h (by simp)
      · rw [hrec] at h
        obtain rfl : jsSlice arr i (i + batchSize) :: bs' = bs := by
          exact Option.some.inj h
        have hflat := ih (i + batchSize) bs' (by omega) hrec
        have hbn : batchSize = ((batchSize.toNat : ℕ) : ℤ) := by omega
        rw [hbn] at hflat ⊢
        rw [List.flatten_cons, hflat, jsSlice_take arr i batchSize.toNat h0 hi]
        have htn : (i + ((batchSize.toNat : ℕ) : ℤ)).toNat = i.toNat + batchSize.toNat := by
          omega
        rw [htn, ← List.drop_drop]
        exact List.take_append_drop _ (arr.drop i.toNat)
    · rw [if_neg hi] at h
      obtain rfl : ([] : List (List α)) = bs := Option.some.inj h
      exact (List.drop_eq_nil_of_le (by omega)).symm

/-- C10: the scheduler does not validate the batch size.  For a
non-positive batch size and a non-empty caption list the batching loop
never finishes at any fuel, and translate never returns (no events are
even emitted, since the start signal follows the batching step); for
every positive batch size the batching step terminates. -/
theorem c10_batchsize_validation {ε} (tm : SRTTranslateMethod ε) (batchSize : ℤ)
    (src tgt : List Char) (captions : List SRTCaption) :
    (batchSize ≤ 0 → captions ≠ [] →
      ∀ fuel, splitIntoBatches (captions.map (fun c => (⟨c.id, c.text⟩ : SRTTranslateCaption))) batchSize fuel = none ∧
        translate tm batchSize src tgt captions fuel = ([], .fuelOut)) ∧
    (∀ b : ℕ, 1 ≤ b → ∀ arr : List SRTTranslateCaption,
      (splitIntoBatches arr (b : ℤ) (arr.length + 1)).isSome) := by
  constructor
  · intro hb hne fuel
    have hlen : (0 : ℤ) < ((captions.map (fun c : SRTCaption => (⟨c.id, c.text⟩ : SRTTranslateCaption))).length : ℤ) := by
      simp [List.length_map]
      exact List.length_pos.mpr hne
    have hnone : splitIntoBatches
        (captions.map (fun c => (⟨c.id, c.text⟩ : SRTTranslateCaption))) batchSize fuel = none :=
      splitLoop_nonpos_none _ batchSize hb fuel 0 hlen
    refine ⟨hnone, ?_⟩
    unfold translate
    dsimp only
    rw [hnone]
  · intro b hb arr
    obtain ⟨bs, hbs, -, -, -⟩ := splitLoop_pos arr b hb (arr.length + 1) 0 (by omega) (by omega)
    rw [splitIntoBatches, hbs]
    rfl

theorem c10_witness :
    (splitIntoBatches ([capA].map (fun c => (⟨c.id, c.text⟩ : SRTTranslateCaption))) (0 : ℤ) 5 = none ∧
      translate tmEcho (0 : ℤ) "en".toList "nl".toList [capA] 5 = ([], .fuelOut)) ∧
    (splitIntoBatches ([] : List SRTTranslateCaption) (1 : ℤ) 1).isSome :=
  ⟨(c10_batchsize_validation tmEcho 0 "en".toList "nl".toList [capA]).1 (by omega)
      (List.cons_ne_nil _ _) 5,
    by
      have h := (c10_batchsize_validation tmEcho 0 "en".toList "nl".toList [capA]).2 1
        (by omega) []
      simpa using h⟩

/-- When the retry loop returns, the missing set computed against the
original batch and the returned accumulated results is empty. -/
theorem translateBatchLoop_missing_nil {ε} {tm : SRTTranslateMethod ε} {src tgt : List Char}
    {captions : List SRTTranslateCaption} :
    ∀ (fuel : ℕ) (translated : List SRTTranslateCaption) (round : ℕ)
      (r : List SRTTranslateCaption),
      translateBatchLoop tm src tgt captions translated round fuel = .ok (some r) →
      missingTranslations captions r = [] := by
  intro fuel
  induction fuel with
  | zero =>
    intro translated round r h
    exact absurd h (by simp [translateBatchLoop])
  | succ n ih =>
    intro translated round r h
    unfold translateBatchLoop at h
    dsimp only at h
    by_cases hm : (missingTranslations captions translated).isEmpty
    · rw [if_pos hm] at h
      obtain rfl : translated = r := by
        have := Except.ok.inj h
        exact Option.some.inj this
      exact List.isEmpty_iff.mp hm
    · rw [if_neg hm] at h
      rcases htm : tm round (missingTranslations captions translated) src tgt with e | retried
      · rw [htm] at h
        exact absurd h (by simp)
      · rw [htm] at h
        exact ih (translated ++ retried) (round + 1) r h

/-- A resolved batch task covers every id of its batch. -/
theorem translateBatch_covers {ε} {tm : SRTTranslateMethod ε} {src tgt : List Char}
    {captions : List SRTTranslateCaption} {fuel : ℕ} {r : List SRTTranslateCaption}
    (h : translateBatch tm src tgt captions fuel = .ok (some r)) :
    ∀ u ∈ captions, ∃ t ∈ r, t.id = u.id := by
  have hmiss : missingTranslations captions r = [] := by
    unfold translateBatch at h
    rcases htm : tm 0 captions src tgt with e | translated
    · rw [htm] at h
      exact absurd h (by simp)
    · rw [htm] at h
      exact translateBatchLoop_missing_nil fuel translated 1 r h
  intro u hu
  have hnone := List.filter_eq_nil_iff.mp hmiss u hu
  simp only [Bool.not_eq_true, Option.isNone_eq_false_iff] at hnone
  obtain ⟨t, ht⟩ := Option.isSome_iff_exists.mp hnone
  refine ⟨t, List.mem_of_find?_eq_some ht, ?_⟩
  have := List.find?_some ht
  exact beq_iff_eq.mp this

/-- A resolved run of the batch tasks covers every id of every batch. -/
theorem limitConcurrentPromises_covers {ε} {tm : SRTTranslateMethod ε} {src tgt : List Char} :
    ∀ (batches : List (List SRTTranslateCaption)) (fuel : ℕ) (T : List SRTTranslateCaption),
      limitConcurrentPromises tm src tgt batches fuel = .ok (some T) →
      ∀ b ∈ batches, ∀ u ∈ b, ∃ t ∈ T, t.id = u.id := by
  intro batches
  induction batches with
  | nil => intro fuel T _ b hb; exact absurd hb (by simp)
  | cons bhd btl ih =>
    intro fuel T h b hb
    unfold limitConcurrentPromises at h
    rcases h1 : translateBatch tm src tgt bhd fuel with e | o
    · rw [h1] at h; exact absurd h (by simp)
    · rcases o with _ | r
      · rw [h1] at h; exact absurd h (by simp)
      · rw [h1] at h
        rcases h2 : limitConcurrentPromises tm src tgt btl fuel with e | o'
        · rw [h2] at h; exact absurd h (by simp)
        · rcases o' with _ | rs
          · rw [h2] at h; exact absurd h (by simp)
          · rw [h2] at h
            obtain rfl : r ++ rs = T := Option.some.inj (Except.ok.inj h)
            rcases List.mem_cons.mp hb with rfl | hbtl
            · intro u hu
              obtain ⟨t, ht, hid⟩ := translateBatch_covers h1 u hu
              exact ⟨t, List.mem_append_left _ ht, hid⟩
            · intro u hu
              obtain ⟨t, ht, hid⟩ := ih fuel rs h2 b hbtl u hu
              exact ⟨t, List.mem_append_right _ ht, hid⟩

/-- A run in which every batch task resolves collects results covering
every id of every batch, under every executing-set timing and any start
index. -/
theorem limitObs_resolves {ε} {tm : SRTTranslateMethod ε} {src tgt : List Char}
    {fuel : ℕ} (observed : ℕ → Bool) :
    ∀ (bs : List (List SRTTranslateCaption)) (i : ℕ),
      (∀ b ∈ bs, ∃ r, translateBatch tm src tgt b fuel = .ok (some r)) →
      ∃ T, limitConcurrentPromisesObs observed tm src tgt i bs fuel = .ok (some T) ∧
        ∀ b ∈ bs, ∀ u ∈ b, ∃ t ∈ T, t.id = u.id := by
  intro bs
  induction bs with
  | nil =>
    intro i _
    refine ⟨[], rfl, ?_⟩
    intro b hb
    cases hb
  | cons bhd btl ih =>
    intro i hres
    obtain ⟨r, hr⟩ := hres bhd (List.mem_cons_self _ _)
    obtain ⟨T', hT', hcov'⟩ := ih (i+1) (fun b hb => hres b (List.mem_cons_of_mem _ hb))
    refine ⟨r ++ T', ?_, ?_⟩
    · unfold limitConcurrentPromisesObs
      rw [hr, hT']
    · intro b hb u hu
      rcases List.mem_cons.mp hb with rfl | hb2
      · obtain ⟨t, ht, hid⟩ := translateBatch_covers hr u hu
        exact ⟨t, List.mem_append_left _ ht, hid⟩
      · obtain ⟨t, ht, hid⟩ := hcov' b hb2 u hu
        exact ⟨t, List.mem_append_right _ ht, hid⟩

/-- If the tasks before position pre.length resolve, the task there
rejects, and that rejection is awaited (still in the executing set at
the race or the final Promise.all), the runner rejects with it. -/
theorem limitObs_error_at {ε} {tm : SRTTranslateMethod ε} {src tgt : List Char}
    {fuel : ℕ} {e : ε} (observed : ℕ → Bool) (bk : List SRTTranslateCaption)
    (post : List (List SRTTranslateCaption))
    (hk : translateBatch tm src tgt bk fuel = .error e) :
    ∀ (pre : List (List SRTTranslateCaption)) (i : ℕ),
      (∀ b ∈ pre, ∃ r, translateBatch tm src tgt b fuel = .ok (some r)) →
      observed (i + pre.length) = true →
      limitConcurrentPromisesObs observed tm src tgt i (pre ++ bk :: post) fuel = .error e := by
  intro pre
  induction pre with
  | nil =>
    intro i _ hobs
    simp only [List.length_nil, Nat.add_zero] at hobs
    rw [List.nil_append]
    unfold limitConcurrentPromisesObs
    rw [hk]
    dsimp only
    rw [if_pos hobs]
  | cons bhd btl ih =>
    intro i hpre hobs
    obtain ⟨r, hr⟩ := hpre bhd (List.mem_cons_self _ _)
    have hobs2 : observed (i + 1 + btl.length) = true := by
      rw [show i + 1 + btl.length = i + (bhd :: btl).length from by
        simp only [List.length_cons]; omega]
      exact hobs
    have htl := ih (i+1) (fun b hb => hpre b (List.mem_cons_of_mem _ hb)) hobs2
    rw [List.cons_append]
    unfold limitConcurrentPromisesObs
    rw [hr, htl]

/-- If the tasks before position pre.length resolve, the task there
rejects, the deletion of its settled promise wins (the rejection is
swallowed), and the remaining tasks resolve, the runner resolves: the
collected results cover every id of every other batch, and the failed
batch contributes nothing. -/
theorem limitObs_swallow_at {ε} {tm : SRTTranslateMethod ε} {src tgt : List Char}
    {fuel : ℕ} {e : ε} (observed : ℕ → Bool) (bk : List SRTTranslateCaption)
    (post : List (List SRTTranslateCaption))
    (hk : translateBatch tm src tgt bk fuel = .error e)
    (hpost : ∀ b ∈ post, ∃ r, translateBatch tm src tgt b fuel = .ok (some r)) :
    ∀ (pre : List (List SRTTranslateCaption)) (i : ℕ),
      (∀ b ∈ pre, ∃ r, translateBatch tm src tgt b fuel = .ok (some r)) →
      observed (i + pre.length) = false →
      ∃ T, limitConcurrentPromisesObs observed tm src tgt i (pre ++ bk :: post) fuel =
          .ok (some T) ∧
        ∀ b ∈ pre ++ post, ∀ u ∈ b, ∃ t ∈ T, t.id = u.id := by
  intro pre
  induction pre with
  | nil =>
    intro i _ hobs
    simp only [List.length_nil, Nat.add_zero] at hobs
    obtain ⟨T, hT, hcov⟩ := limitObs_resolves observed post (i+1) hpost
    refine ⟨T, ?_, ?_⟩
    · rw [List.nil_append]
      unfold limitConcurrentPromisesObs
      rw [hk]
      dsimp only
      rw [if_neg (by rw [hobs]; exact Bool.false_ne_true)]
      exact hT
    · intro b hb
      rw [List.nil_append] at hb
      exact hcov b hb
  | cons bhd btl ih =>
    intro i hpre hobs
    obtain ⟨r, hr⟩ := hpre bhd (List.mem_cons_self _ _)
    have hobs2 : observed (i + 1 + btl.length) = false := by
      rw [show i + 1 + btl.length = i + (bhd :: btl).length from by
        simp only [List.length_cons]; omega]
      exact hobs
    obtain ⟨T', hT', hcov'⟩ := ih (i+1) (fun b hb => hpre b (List.mem_cons_of_mem _ hb)) hobs2
    refine ⟨r ++ T', ?_, ?_⟩
    · rw [List.cons_append]
      unfold limitConcurrentPromisesObs
      rw [hr, hT']
    · intro b hb u hu
      rw [List.cons_append] at hb
      rcases List.mem_cons.mp hb with rfl | hb2
      · obtain ⟨t, ht, hid⟩ := translateBatch_covers hr u hu
        exact ⟨t, List.mem_append_left _ ht, hid⟩
      · obtain ⟨t, ht, hid⟩ := hcov' b hb2 u hu
        exact ⟨t, List.mem_append_right _ ht, hid⟩

/-- C4 counterexample: three captions, batch size 1, the default
concurrency cap 10 (the loop never parks on a race), and a backend that
rejects the first batch's call immediately and resolves the others.
Under the source's event loop the rejected task promise settles and its
finally handler deletes it from the executing set three microtasks
later, before the loop — one microtask per awaited enqueue — reaches the
final Promise.all, so the rejection is swallowed: the backend call fails
(first conjunct), yet the translate call resolves, the finish signal is
emitted, reassembly runs, an error signal is emitted for the failed id,
and its caption falls back to its original text — against the claimed
propagation, absence of a finish signal and absence of reassembly. -/
theorem c4_counterexample :
    tmRejectFirst 0 [(⟨['1'], ['a']⟩ : SRTTranslateCaption)] "en".toList "nl".toList =
      .error ('b' :: 'o' :: ['o', 'm']) ∧
    translateRun tmRejectFirst 1 "en".toList "nl".toList [capF1, capF2, capF3] 10 60 =
      ([TranslateEvent.start 3 3, TranslateEvent.finish, TranslateEvent.error ['1']],
       .ok [capF1, { capF2 with text := 'T' :: ['b'] },
            { capF3 with text := 'T' :: ['c'] }]) := by
  constructor
  · rfl
  · decide

/-- C4 amended: a backend hard failure is never retried as missing units
and its batch's results never reach the collected results; whether it
fails the whole call is decided by the executing-set timing.  When the
rejection is awaited, translate rejects with that error, emitting no
finish signal and performing no reassembly; when the finally deletion
wins, translate completes: the collected results cover every unit of
every other batch, and the call emits finish and then an error signal
for every caption id the results do not cover, those captions falling
back to their original text. -/
theorem c4_failure_dichotomy {ε} (observed : ℕ → Bool) (tm : SRTTranslateMethod ε)
    (batchSize : ℤ) (src tgt : List Char) (captions : List SRTCaption) (fuel : ℕ)
    (pre : List (List SRTTranslateCaption)) (bk : List SRTTranslateCaption)
    (post : List (List SRTTranslateCaption)) (e : ε)
    (hsp : splitIntoBatches (captions.map (fun c => (⟨c.id, c.text⟩ : SRTTranslateCaption)))
      batchSize fuel = some (pre ++ bk :: post))
    (hpre : ∀ b ∈ pre, ∃ r, translateBatch tm src tgt b fuel = .ok (some r))
    (hpost : ∀ b ∈ post, ∃ r, translateBatch tm src tgt b fuel = .ok (some r))
    (hk : translateBatch tm src tgt bk fuel = .error e) :
    (observed pre.length = true →
      translateObs observed tm batchSize src tgt captions fuel =
        ([TranslateEvent.start captions.length (pre ++ bk :: post).length], .fail e)) ∧
    (observed pre.length = false →
      ∃ T, limitConcurrentPromisesObs observed tm src tgt 0 (pre ++ bk :: post) fuel =
          .ok (some T) ∧
        (∀ b ∈ pre ++ post, ∀ u ∈ b, ∃ t ∈ T, t.id = u.id) ∧
        translateObs observed tm batchSize src tgt captions fuel =
          (TranslateEvent.start captions.length (pre ++ bk :: post).length ::
            TranslateEvent.finish ::
            (captions.filter (fun caption =>
              (T.find? (fun tc => tc.id == caption.id)).isNone)).map
              (fun caption => TranslateEvent.error caption.id),
           .ok (captions.map (fun caption =>
             match T.find? (fun tc => tc.id == caption.id) with
             | some translatedCaption => { caption with text := translatedCaption.text }
             | none => caption)))) := by
  constructor
  · intro hobs
    have hobs0 : observed (0 + pre.length) = true := by
      rw [Nat.zero_add]
      exact hobs
    have hlim := limitObs_error_at observed bk post hk pre 0 hpre hobs0
    unfold translateObs
    dsimp only
    rw [hsp]
    dsimp only
    rw [hlim]
  · intro hobs
    have hobs0 : observed (0 + pre.length) = false := by
      rw [Nat.zero_add]
      exact hobs
    obtain ⟨T, hT, hcov⟩ := limitObs_swallow_at observed bk post hk hpost pre 0 hpre hobs0
    refine ⟨T, hT, hcov, ?_⟩
    unfold translateObs
    dsimp only
    rw [hsp]
    dsimp only
    rw [hT]

/-- C4 amended, at a swallowed rejection: two captions in singleton
batches, the first batch's backend call rejecting, the second resolving,
with the rejection of task 0 not awaited. -/
theorem c4_dichotomy_witness :
    ∃ T, limitConcurrentPromisesObs (fun _ => false) tmRejectFirst "en".toList "nl".toList 0
        [[(⟨"1".toList, "Hello".toList⟩ : SRTTranslateCaption)],
         [(⟨"2".toList, "Hola".toList⟩ : SRTTranslateCaption)]] 10 = .ok (some T) ∧
      (∀ b ∈ ([[(⟨"2".toList, "Hola".toList⟩ : SRTTranslateCaption)]] :
          List (List SRTTranslateCaption)), ∀ u ∈ b, ∃ t ∈ T, t.id = u.id) ∧
      translateObs (fun _ => false) tmRejectFirst 1 "en".toList "nl".toList [capA, capB] 10 =
        (TranslateEvent.start 2
            ([[(⟨"1".toList, "Hello".toList⟩ : SRTTranslateCaption)],
              [(⟨"2".toList, "Hola".toList⟩ : SRTTranslateCaption)]] :
            List (List SRTTranslateCaption)).length ::
          TranslateEvent.finish ::
          (([capA, capB] : List SRTCaption).filter (fun caption =>
            (T.find? (fun tc => tc.id == caption.id)).isNone)).map
            (fun caption => TranslateEvent.error caption.id),
         .ok (([capA, capB] : List SRTCaption).map (fun caption =>
           match T.find? (fun tc => tc.id == caption.id) with
           | some translatedCaption => { caption with text := translatedCaption.text }
           | none => caption))) :=
  (c4_failure_dichotomy (fun _ => false) tmRejectFirst 1 "en".toList "nl".toList
    [capA, capB] 10 [] [⟨"1".toList, "Hello".toList⟩]
    [[⟨"2".toList, "Hola".toList⟩]] ('b' :: 'o' :: ['o', 'm']) rfl
    (by intro b hb; exact absurd hb (by simp))
    (by
      intro b hb
      rcases List.mem_singleton.mp hb with rfl
      exact ⟨[⟨"2".toList, 'T' :: "Hola".toList⟩], rfl⟩)
    rfl).2 rfl

/-- C5 counterexample: a translate call on which every batch task has
settled — three resolved, one rejected with its deletion winning the
race to the final Promise.all — completes while emitting an error signal
and taking the untranslated fallback for the failed batch's caption:
completion does not make the error branch unreachable. -/
theorem c5_counterexample :
    translateRun tmRejectFirst 1 "en".toList "nl".toList [capF1, capF2, capF3, capF4] 10 80 =
      ([TranslateEvent.start 4 4, TranslateEvent.finish, TranslateEvent.error ['1']],
       .ok [capF1, { capF2 with text := 'T' :: ['b'] },
            { capF3 with text := 'T' :: ['c'] }, { capF4 with text := 'T' :: ['d'] }]) ∧
    TranslateEvent.error ['1'] ∈
      (translateRun tmRejectFirst 1 "en".toList "nl".toList
        [capF1, capF2, capF3, capF4] 10 80).1 := by
  constructor
  · decide
  · decide

/-- C5 amended: on every translate call whose batch tasks all resolve —
no backend call left a task rejected — and under every executing-set
timing, the reassembly lookup succeeds for every original caption id:
the event stream is exactly the start signal followed by the finish
signal, no error signal is emitted, and no caption takes the
untranslated fallback branch. -/
theorem c5_no_error_when_tasks_resolve {ε} (observed : ℕ → Bool) (tm : SRTTranslateMethod ε)
    (batchSize : ℤ) (src tgt : List Char) (captions : List SRTCaption) (fuel : ℕ)
    (batches : List (List SRTTranslateCaption))
    (hsp : splitIntoBatches (captions.map (fun c => (⟨c.id, c.text⟩ : SRTTranslateCaption)))
      batchSize fuel = some batches)
    (hres : ∀ b ∈ batches, ∃ r, translateBatch tm src tgt b fuel = .ok (some r)) :
    ∃ out, translateObs observed tm batchSize src tgt captions fuel =
      ([TranslateEvent.start captions.length batches.length, TranslateEvent.finish],
       .ok out) := by
  obtain ⟨T, hT, hcov⟩ := limitObs_resolves observed batches 0 hres
  have hfilter : captions.filter
      (fun caption => (T.find? (fun tc => tc.id == caption.id)).isNone) = [] := by
    apply List.filter_eq_nil_iff.mpr
    intro c hc
    have hu : (⟨c.id, c.text⟩ : SRTTranslateCaption) ∈
        captions.map (fun c => (⟨c.id, c.text⟩ : SRTTranslateCaption)) :=
      List.mem_map_of_mem _ hc
    have hflat := splitLoop_flatten _ batchSize fuel 0 batches (by omega) hsp
    rw [show Int.toNat 0 = 0 from rfl, List.drop_zero] at hflat
    rw [← hflat] at hu
    obtain ⟨b, hbmem, hub⟩ := List.mem_flatten.mp hu
    obtain ⟨t, htT, hid⟩ := hcov b hbmem _ hub
    simp only [Bool.not_eq_true, Option.isNone_eq_false_iff]
    apply Option.isSome_iff_exists.mpr
    have hfound : (T.find? (fun tc => tc.id == c.id)).isSome := by
      apply List.find?_isSome.mpr
      exact ⟨t, htT, beq_iff_eq.mpr hid⟩
    obtain ⟨t', ht'⟩ := Option.isSome_iff_exists.mp hfound
    exact ⟨t', ht'⟩
  refine ⟨captions.map (fun caption =>
    match T.find? (fun tc => tc.id == caption.id) with
    | some translatedCaption => { caption with text := translatedCaption.text }
    | none => caption), ?_⟩
  unfold translateObs
  dsimp only
  rw [hsp]
  dsimp only
  rw [hT]
  dsimp only
  rw [hfilter]
  rfl

/-- C5 amended, at a resolving run under an all-swallowing timing. -/
theorem c5_resolved_witness :
    ∃ out, translateObs (fun _ => false) tmEcho 500 "en".toList "nl".toList [capA] 10 =
      ([TranslateEvent.start 1
          ([[(⟨"1".toList, "Hello".toList⟩ : SRTTranslateCaption)]] :
            List (List SRTTranslateCaption)).length, TranslateEvent.finish], .ok out) :=
  c5_no_error_when_tasks_resolve (fun _ => false) tmEcho 500 "en".toList "nl".toList
    [capA] 10 [[⟨"1".toList, "Hello".toList⟩]] rfl
    (by
      intro b hb
      rcases List.mem_singleton.mp hb with rfl
      exact ⟨[⟨"1".toList, "Hello".toList⟩], rfl⟩)

/-- On the three-batch swallowed-rejection scenario the event-loop model
and the outcome model with the rejection of task 0 unobserved agree. -/
theorem translateRun_agrees_obs :
    translateRun tmRejectFirst 1 "en".toList "nl".toList [capF1, capF2, capF3] 10 60 =
      translateObs (fun _ => false) tmRejectFirst 1 "en".toList "nl".toList
        [capF1, capF2, capF3] 60 := by
  decide

/-- Strengthened invariant of the admission gate: the in-flight count
never exceeds the bound, and while the main loop is not parked on a race
it is strictly below the bound. -/
theorem lim_invariant (c n : ℕ) (hc : 1 ≤ c) (s : LimState) (h : LimReachable c n s) :
    s.running ≤ c ∧ (s.blocked = false → s.running < c) := by
  induction h with
  | refl => exact ⟨Nat.zero_le c, fun _ => hc⟩
  | tail hsteps step ih =>
    cases step with
    | start p r =>
      obtain ⟨h1, h2⟩ := ih
      have hr : r < c := h2 rfl
      constructor
      · show r + 1 ≤ c
        omega
      · intro hb
        have hb' : decide (c ≤ r + 1) = false := hb
        have := of_decide_eq_false hb'
        show r + 1 < c
        omega
    | complete p r b =>
      obtain ⟨h1, h2⟩ := ih
      have h1' : r + 1 ≤ c := h1
      constructor
      · show r ≤ c
        omega
      · intro _
        show r < c
        omega

/-- C2: in every state reachable while the gate runs any number of batch
tasks under any positive concurrency bound, the number of concurrently
running tasks (hence of concurrently executing backend calls, each task
making at most one at a time) never exceeds the bound. -/
theorem c2_concurrency_bound (c n : ℕ) (hc : 1 ≤ c) (s : LimState)
    (h : LimReachable c n s) : s.running ≤ c :=
  (lim_invariant c n hc s h).1

theorem c2_witness : (⟨0, 1, true⟩ : LimState).running ≤ 1 :=
  c2_concurrency_bound 1 2 (by omega) ⟨0, 1, true⟩
    (Relation.ReflTransGen.tail
      (Relation.ReflTransGen.tail (Relation.ReflTransGen.single (@LimStep.start 1 1 0))
        (@LimStep.complete 1 1 0 true))
      (@LimStep.start 1 0 0))

/-- The missing set only inspects ids: mapping the accumulated results
through an id-preserving function does not change it. -/
theorem missingTranslations_map (b A : List SRTTranslateCaption)
    (g : SRTTranslateCaption → SRTTranslateCaption) (hg : ∀ u, (g u).id = u.id) :
    missingTranslations b (A.map g) = missingTranslations b A := by
  unfold missingTranslations
  apply List.filter_congr
  intro u _
  have h1 : (A.map g).find? (fun c => c.id == u.id) =
      Option.map g (A.find? (fun c => c.id == u.id)) := by
    rw [List.find?_map]
    have hfun : ((fun c : SRTTranslateCaption => c.id == u.id) ∘ g) =
        (fun c => c.id == u.id) := by
      funext v
      simp [Function.comp, hg v]
    rw [hfun]
  rw [h1]
  cases A.find? (fun c => c.id == u.id) <;> rfl

/-- Every unit finds itself: the missing set against the batch itself is
empty. -/
theorem missingTranslations_self (b : List SRTTranslateCaption) :
    missingTranslations b b = [] := by
  apply List.filter_eq_nil_iff.mpr
  intro u hu
  simp only [Bool.not_eq_true, Option.isNone_eq_false_iff]
  exact List.find?_isSome.mpr ⟨u, hu, beq_iff_eq.mpr rfl⟩

/-- Against the batch minus the units with a given id, the missing set is
exactly the units with that id. -/
theorem missingTranslations_filter (b : List SRTTranslateCaption) (x : List Char) :
    missingTranslations b (b.filter (fun u => !(u.id == x))) =
      b.filter (fun u => u.id == x) := by
  unfold missingTranslations
  apply List.filter_congr
  intro u hu
  by_cases hux : u.id = x
  · have h1 : (b.filter (fun u => !(u.id == x))).find? (fun c => c.id == u.id) = none := by
      apply List.find?_eq_none.mpr
      intro c hc
      have hcx := (List.mem_filter.mp hc).2
      simp only [Bool.not_eq_true', beq_eq_false_iff_ne] at hcx
      simp only [hux, beq_iff_eq]
      exact hcx
    rw [h1]
    simp [hux]
  · have h1 : ((b.filter (fun u => !(u.id == x))).find? (fun c => c.id == u.id)).isSome := by
      apply List.find?_isSome.mpr
      refine ⟨u, List.mem_filter.mpr ⟨hu, ?_⟩, beq_iff_eq.mpr rfl⟩
      simp [hux]
    have h2 : ((b.filter (fun u => !(u.id == x))).find? (fun c => c.id == u.id)).isNone = false :=
      (Option.isNone_eq_false_iff _).mpr h1
    rw [h2]
    exact (beq_eq_false_iff_ne.mpr hux).symm

/-- Against the id-split of the batch, the missing set is empty. -/
theorem missingTranslations_filter_append (b : List SRTTranslateCaption) (x : List Char) :
    missingTranslations b
      (b.filter (fun u => !(u.id == x)) ++ b.filter (fun u => u.id == x)) = [] := by
  apply List.filter_eq_nil_iff.mpr
  intro u hu
  simp only [Bool.not_eq_true, Option.isNone_eq_false_iff]
  apply List.find?_isSome.mpr
  by_cases hux : u.id = x
  · exact ⟨u, List.mem_append_right _ (List.mem_filter.mpr ⟨hu, by simp [hux]⟩),
      beq_iff_eq.mpr rfl⟩
  · exact ⟨u, List.mem_append_left _ (List.mem_filter.mpr ⟨hu, by simp [hux]⟩),
      beq_iff_eq.mpr rfl⟩

/-- Middle rounds of the retry loop under the omitting stub: from round j
(with K - j omitting rounds still to come) the loop keeps retrying the
same missing set, receives it at round K, and returns with every unit of
the batch accumulated. -/
theorem c3_loop {ε} (tm : SRTTranslateMethod ε) (src tgt x : List Char)
    (tr : List Char → List Char) (K : ℕ)
    (htm : ∀ round units, tm round units src tgt = .ok
      ((if round < K then units.filter (fun u => !(u.id == x)) else units).map
        (fun u => ⟨u.id, tr u.id⟩)))
    (b : List SRTTranslateCaption) (hM : b.filter (fun u => u.id == x) ≠ []) :
    ∀ (d j : ℕ), j + d = K → 1 ≤ j → ∀ fl, d + 2 ≤ fl →
      translateBatchLoop tm src tgt b
        ((b.filter (fun u => !(u.id == x))).map (fun u => ⟨u.id, tr u.id⟩)) j fl =
      .ok (some
        ((b.filter (fun u => !(u.id == x))).map (fun u => ⟨u.id, tr u.id⟩) ++
         (b.filter (fun u => u.id == x)).map (fun u => ⟨u.id, tr u.id⟩))) := by
  have hmiss : missingTranslations b
      ((b.filter (fun u => !(u.id == x))).map (fun u => (⟨u.id, tr u.id⟩ : SRTTranslateCaption))) =
      b.filter (fun u => u.id == x) := by
    rw [missingTranslations_map b (b.filter (fun u => !(u.id == x)))
      (fun u => ⟨u.id, tr u.id⟩) (fun u => rfl), missingTranslations_filter]
  have hMempty : (b.filter (fun u => u.id == x)).isEmpty = false :=
    Bool.eq_false_iff.mpr (fun h => hM (List.isEmpty_iff.mp h))
  have hMfilter : (b.filter (fun u => u.id == x)).filter (fun u => !(u.id == x)) = [] := by
    apply List.filter_eq_nil_iff.mpr
    intro u hu
    have := (List.mem_filter.mp hu).2
    simp only [Bool.not_eq_true]
    simpa using this
  have hdone : missingTranslations b
      ((b.filter (fun u => !(u.id == x))).map (fun u => (⟨u.id, tr u.id⟩ : SRTTranslateCaption)) ++
       (b.filter (fun u => u.id == x)).map (fun u => ⟨u.id, tr u.id⟩)) = [] := by
    rw [← List.map_append, missingTranslations_map b
      (b.filter (fun u => !(u.id == x)) ++ b.filter (fun u => u.id == x))
      (fun u => ⟨u.id, tr u.id⟩) (fun u => rfl), missingTranslations_filter_append]
  intro d
  induction d with
  | zero =>
    intro j hjd hj fl hfl
    obtain ⟨fl1, rfl⟩ : ∃ fl1, fl = fl1 + 1 := ⟨fl - 1, by omega⟩
    obtain rfl : j = K := by omega
    unfold translateBatchLoop
    dsimp only
    rw [hmiss, hMempty]
    rw [if_neg Bool.false_ne_true]
    rw [htm j (b.filter (fun u => u.id == x))]
    rw [if_neg (by omega)]
    obtain ⟨fl2, rfl⟩ : ∃ fl2, fl1 = fl2 + 1 := ⟨fl1 - 1, by omega⟩
    unfold translateBatchLoop
    dsimp only
    rw [hdone]
    rfl
  | succ dd ih =>
    intro j hjd hj fl hfl
    obtain ⟨fl1, rfl⟩ : ∃ fl1, fl = fl1 + 1 := ⟨fl - 1, by omega⟩
    unfold translateBatchLoop
    dsimp only
    rw [hmiss, hMempty]
    rw [if_neg Bool.false_ne_true]
    rw [htm j (b.filter (fun u => u.id == x))]
    rw [if_pos (by omega), hMfilter]
    dsimp only [List.map_nil]
    rw [List.append_nil]
    exact ih (j + 1) (by omega) (by omega) fl1 (by omega)

/-- Under the omitting stub every batch task resolves (with fuel at least
K + 1) and every accumulated unit carries the backend-translated text. -/
theorem c3_batch {ε} (tm : SRTTranslateMethod ε) (src tgt x : List Char)
    (tr : List Char → List Char) (K : ℕ)
    (htm : ∀ round units, tm round units src tgt = .ok
      ((if round < K then units.filter (fun u => !(u.id == x)) else units).map
        (fun u => ⟨u.id, tr u.id⟩)))
    (b : List SRTTranslateCaption) (fuel : ℕ) (hfuel : K + 1 ≤ fuel) :
    ∃ r, translateBatch tm src tgt b fuel = .ok (some r) ∧ ∀ t ∈ r, t.text = tr t.id := by
  obtain ⟨fl1, rfl⟩ : ∃ fl1, fuel = fl1 + 1 := ⟨fuel - 1, by omega⟩
  unfold translateBatch
  rw [htm 0 b]
  rcases Nat.eq_zero_or_pos K with rfl | hK
  · rw [if_neg (by omega)]
    refine ⟨b.map (fun u => ⟨u.id, tr u.id⟩), ?_, ?_⟩
    · unfold translateBatchLoop
      dsimp only
      rw [missingTranslations_map b b (fun u => ⟨u.id, tr u.id⟩) (fun u => rfl),
        missingTranslations_self]
      rfl
    · intro t ht
      obtain ⟨u, _, rfl⟩ := List.mem_map.mp ht
      rfl
  · rw [if_pos hK]
    by_cases hM : b.filter (fun u => u.id == x) = []
    · refine ⟨(b.filter (fun u => !(u.id == x))).map (fun u => ⟨u.id, tr u.id⟩), ?_, ?_⟩
      · unfold translateBatchLoop
        dsimp only
        rw [missingTranslations_map b (b.filter (fun u => !(u.id == x)))
          (fun u => ⟨u.id, tr u.id⟩) (fun u => rfl), missingTranslations_filter, hM]
        rfl
      · intro t ht
        obtain ⟨u, _, rfl⟩ := List.mem_map.mp ht
        rfl
    · refine ⟨(b.filter (fun u => !(u.id == x))).map (fun u => ⟨u.id, tr u.id⟩) ++
        (b.filter (fun u => u.id == x)).map (fun u => ⟨u.id, tr u.id⟩), ?_, ?_⟩
      · exact c3_loop tm src tgt x tr K htm b hM (K - 1) 1 (by omega) (by omega) (fl1 + 1)
          (by omega)
      · intro t ht
        rcases List.mem_append.mp ht with h1 | h1 <;>
          · obtain ⟨u, _, rfl⟩ := List.mem_map.mp h1
            rfl

/-- Under the omitting stub the whole runner resolves and every collected
unit carries the backend-translated text. -/
theorem c3_runner {ε} (tm : SRTTranslateMethod ε) (src tgt x : List Char)
    (tr : List Char → List Char) (K : ℕ)
    (htm : ∀ round units, tm round units src tgt = .ok
      ((if round < K then units.filter (fun u => !(u.id == x)) else units).map
        (fun u => ⟨u.id, tr u.id⟩))) :
    ∀ (batches : List (List SRTTranslateCaption)) (fuel : ℕ), K + 1 ≤ fuel →
      ∃ T, limitConcurrentPromises tm src tgt batches fuel = .ok (some T) ∧
        ∀ t ∈ T, t.text = tr t.id := by
  intro batches
  induction batches with
  | nil =>
    intro fuel _
    exact ⟨[], rfl, by simp⟩
  | cons bhd btl ih =>
    intro fuel hfuel
    obtain ⟨r, hr, hrok⟩ := c3_batch tm src tgt x tr K htm bhd fuel hfuel
    obtain ⟨rs, hrs, hrsok⟩ := ih fuel hfuel
    refine ⟨r ++ rs, ?_, ?_⟩
    · unfold limitConcurrentPromises
      rw [hr, hrs]
    · intro t ht
      rcases List.mem_append.mp ht with h1 | h1
      · exact hrok t h1
      · exact hrsok t h1

/-- C3: with a backend that omits the units of a fixed id x from its
first K responses within each batch task and returns every requested
unit from round K on, the retry loop of every batch terminates, the
whole translate call terminates (fuel linear in the input suffices),
exactly the start and finish signals are emitted, and every output
caption (in particular the one with id x) carries the backend-supplied
translated text, not the original fallback text. -/
theorem c3_retry_convergence {ε} (tm : SRTTranslateMethod ε) (src tgt x : List Char)
    (tr : List Char → List Char) (K : ℕ) (b : ℕ) (hb : 1 ≤ b)
    (captions : List SRTCaption) (fuel : ℕ)
    (htm : ∀ round units, tm round units src tgt = .ok
      ((if round < K then units.filter (fun u => !(u.id == x)) else units).map
        (fun u => ⟨u.id, tr u.id⟩)))
    (hfuel : captions.length + K + 1 ≤ fuel) :
    ∃ nb, translate tm (b : ℤ) src tgt captions fuel =
      ([TranslateEvent.start captions.length nb, TranslateEvent.finish],
       .ok (captions.map (fun c => { c with text := tr c.id }))) := by
  obtain ⟨bs, hbs, hflat, -, -⟩ := splitLoop_pos
    (captions.map (fun c => (⟨c.id, c.text⟩ : SRTTranslateCaption))) b hb fuel 0 (by omega)
    (by simp [List.length_map]; omega)
  obtain ⟨T, hT, hTok⟩ := c3_runner tm src tgt x tr K htm bs fuel (by omega)
  have hcov : ∀ c ∈ captions, ∃ t ∈ T, t.id = c.id := by
    intro c hc
    have hu : (⟨c.id, c.text⟩ : SRTTranslateCaption) ∈
        captions.map (fun c => (⟨c.id, c.text⟩ : SRTTranslateCaption)) :=
      List.mem_map_of_mem _ hc
    rw [show Int.toNat 0 = 0 from rfl, List.drop_zero] at hflat
    rw [← hflat] at hu
    obtain ⟨bb, hbmem, hub⟩ := List.mem_flatten.mp hu
    exact limitConcurrentPromises_covers bs fuel T hT bb hbmem _ hub
  refine ⟨bs.length, ?_⟩
  unfold translate
  dsimp only
  rw [show splitIntoBatches (captions.map (fun c => (⟨c.id, c.text⟩ : SRTTranslateCaption)))
    (b : ℤ) fuel = some bs from hbs]
  dsimp only
  rw [hT]
  dsimp only
  have hfind : ∀ c ∈ captions, ∃ t, T.find? (fun tc => tc.id == c.id) = some t ∧
      t.id = c.id := by
    intro c hc
    obtain ⟨t0, ht0, hid0⟩ := hcov c hc
    have : (T.find? (fun tc => tc.id == c.id)).isSome :=
      List.find?_isSome.mpr ⟨t0, ht0, beq_iff_eq.mpr hid0⟩
    obtain ⟨t, ht⟩ := Option.isSome_iff_exists.mp this
    have hp := List.find?_some ht
    exact ⟨t, ht, beq_iff_eq.mp hp⟩
  have herrs : captions.filter
      (fun caption => (T.find? (fun tc => tc.id == caption.id)).isNone) = [] := by
    apply List.filter_eq_nil_iff.mpr
    intro c hc
    obtain ⟨t, ht, -⟩ := hfind c hc
    simp [ht]
  have hout : captions.map (fun caption =>
      match T.find? (fun tc => tc.id == caption.id) with
      | some translatedCaption => { caption with text := translatedCaption.text }
      | none => caption) = captions.map (fun c => { c with text := tr c.id }) := by
    apply List.map_congr_left
    intro c hc
    obtain ⟨t, ht, hid⟩ := hfind c hc
    rw [ht]
    dsimp only
    have := hTok t (List.mem_of_find?_eq_some ht)
    rw [this, hid]
  rw [herrs, hout]
  rfl

theorem c3_witness :
    ∃ nb, translate (tmOmit 2 ('2' :: [])) ((500 : ℕ) : ℤ) "en".toList "nl".toList [capB] 4 =
      ([TranslateEvent.start 1 nb, TranslateEvent.finish],
       .ok (([capB] : List SRTCaption).map (fun c => { c with text := trUp c.id }))) :=
  c3_retry_convergence (tmOmit 2 ('2' :: [])) "en".toList "nl".toList ('2' :: []) trUp 2
    500 (by omega) [capB] 4 (fun round units => rfl) (by simp)

/-- A pattern-free string is unchanged by full replacement. -/
theorem replaceAll_of_count_zero (pat : Char) (repl : List Char) :
    ∀ s : List Char, s.count pat = 0 → replaceAll pat repl s = s := by
  intro s
  induction s with
  | nil => intro _; rfl
  | cons c rest ih =>
    intro h
    rw [List.count_cons] at h
    unfold replaceAll
    have hc : (c == pat) = false := by
      by_cases hcp : c = pat
      · subst hcp
        simp at h
      · exact beq_eq_false_iff_ne.mpr hcp
    rw [hc]
    simp only [Bool.false_eq_true, if_false]
    rw [ih (by omega)]

/-- On a string with at most one occurrence, first-occurrence replacement
and full replacement agree. -/
theorem replaceFirst_eq_replaceAll (pat : Char) (repl : List Char) :
    ∀ s : List Char, s.count pat ≤ 1 → replaceFirst pat repl s = replaceAll pat repl s := by
  intro s
  induction s with
  | nil => intro _; rfl
  | cons c rest ih =>
    intro h
    rw [List.count_cons] at h
    unfold replaceFirst replaceAll
    by_cases hcp : c = pat
    · subst hcp
      rw [beq_self_eq_true]
      simp only [if_true]
      have hz : rest.count c = 0 := by
        simp at h
        omega
      rw [replaceAll_of_count_zero c repl rest hz]
    · rw [beq_eq_false_iff_ne.mpr hcp]
      simp only [Bool.false_eq_true, if_false]
      rw [ih (by omega)]

/-- C8 counterexample: with a CRLF terminator and a body holding two
newlines, the source serializer does not produce the fully converted
output the claim describes (only the first newline is converted). -/
theorem c8_counterexample :
    stringify ('\r' :: ['\n']) [capNl] ≠ stringifySpec ('\r' :: ['\n']) [capNl] := by
  decide

/-- C8 amended: stringify replaces only the first internal newline of
each caption body with the configured terminator, so it agrees with the
fully converting serializer exactly on captions whose body holds at most
one internal newline (for every terminator). -/
theorem c8_first_newline_only (eol : List Char) (captions : List SRTCaption)
    (h : ∀ c ∈ captions, c.text.count '\n' ≤ 1) :
    stringify eol captions = stringifySpec eol captions := by
  induction captions with
  | nil => rfl
  | cons c rest ih =>
    unfold stringify stringifySpec
    rw [replaceFirst_eq_replaceAll '\n' eol c.text (h c (List.mem_cons_self _ _)),
      ih (fun c hc => h c (List.mem_cons_of_mem _ hc))]

/-- C8 amended, at a caption with exactly one internal newline. -/
theorem c8_witness :
    stringify ('\r' :: ['\n']) [capOneNl] = stringifySpec ('\r' :: ['\n']) [capOneNl] :=
  c8_first_newline_only ('\r' :: ['\n']) [capOneNl] (by decide)

/-! ## Lemmas on the JS string primitives -/

/-- Digits are not JS whitespace. -/
theorem jsWs_of_isDigit {c : Char} (h : c.isDigit = true) : jsWs c = false := by
  unfold jsWs
  simp only [Bool.or_eq_false_iff, beq_eq_false_iff_ne]
  refine ⟨⟨⟨⟨⟨?_, ?_⟩, ?_⟩, ?_⟩, ?_⟩, ?_⟩ <;> (rintro rfl; revert h; decide)

/-- Digits are none of the structural punctuation characters. -/
theorem isDigit_ne {c : Char} (h : c.isDigit = true) :
    c ≠ ':' ∧ c ≠ ',' ∧ c ≠ '.' ∧ c ≠ '\n' ∧ c ≠ '\r' := by
  refine ⟨?_, ?_, ?_, ?_, ?_⟩ <;> (rintro rfl; revert h; decide)

/-- dropWhile yields a suffix. -/
theorem dropWhile_suffix (p : Char → Bool) :
    ∀ s : List Char, ∃ u, s = u ++ s.dropWhile p := by
  intro s
  induction s with
  | nil => exact ⟨[], rfl⟩
  | cons c rest ih =>
    by_cases hc : p c = true
    · obtain ⟨u, hu⟩ := ih
      refine ⟨c :: u, ?_⟩
      rw [List.dropWhile_cons_of_pos hc, List.cons_append, ← hu]
    · refine ⟨[], ?_⟩
      rw [List.dropWhile_cons_of_neg (by simp [hc]), List.nil_append]

/-- trim yields an infix: some prefix and suffix are cut off. -/
theorem trim_infix (s : List Char) : ∃ u w, s = u ++ trim s ++ w := by
  obtain ⟨u, hu⟩ := dropWhile_suffix jsWs s
  obtain ⟨w', hw⟩ := dropWhile_suffix jsWs (s.dropWhile jsWs).reverse
  refine ⟨u, w'.reverse, ?_⟩
  have key : s.dropWhile jsWs = trim s ++ w'.reverse := by
    unfold trim
    conv_lhs => rw [← List.reverse_reverse (s.dropWhile jsWs), hw]
    rw [List.reverse_append]
  rw [List.append_assoc, ← key, ← hu]

/-- A string all of whose characters are non-whitespace is its own trim. -/
theorem trim_eq_self {s : List Char} (h : ∀ c ∈ s, jsWs c = false) : trim s = s := by
  unfold trim
  have h1 : s.dropWhile jsWs = s := by
    apply List.dropWhile_eq_self_iff.mpr
    intro hlen
    have hm := List.getElem_mem hlen
    simp [h _ hm]
  rw [h1]
  have h2 : s.reverse.dropWhile jsWs = s.reverse := by
    apply List.dropWhile_eq_self_iff.mpr
    intro hlen
    have hm := List.getElem_mem hlen
    have hm' : s.reverse.get ⟨0, hlen⟩ ∈ s := by
      apply List.mem_reverse.mp
      exact List.get_mem _ _ _
    rw [h _ hm']
    simp
  rw [h2, List.reverse_reverse]

/-- Prepending whitespace does not change the trim. -/
theorem trim_cons_ws {c : Char} (hc : jsWs c = true) (s : List Char) :
    trim (c :: s) = trim s := by
  unfold trim
  rw [List.dropWhile_cons_of_pos hc]

/-- dropWhile over an appended matching character. -/
theorem dropWhile_append_single (p : Char → Bool) (c : Char) (hc : p c = true)
    (s : List Char) :
    (s ++ [c]).dropWhile p =
      if s.dropWhile p = [] then [] else s.dropWhile p ++ [c] := by
  induction s with
  | nil =>
    simp [List.dropWhile_cons_of_pos hc]
  | cons d r ih =>
    by_cases hd : p d = true
    · rw [List.cons_append, List.dropWhile_cons_of_pos hd, List.dropWhile_cons_of_pos hd, ih]
    · rw [List.cons_append, List.dropWhile_cons_of_neg (by simp [hd]),
        List.dropWhile_cons_of_neg (by simp [hd])]
      rw [if_neg (by simp), List.cons_append]

/-- Appending whitespace does not change the trim. -/
theorem trim_append_ws {c : Char} (hc : jsWs c = true) (s : List Char) :
    trim (s ++ [c]) = trim s := by
  unfold trim
  rw [dropWhile_append_single jsWs c hc s]
  by_cases hnil : s.dropWhile jsWs = []
  · rw [if_pos hnil, hnil]
  · rw [if_neg hnil, List.reverse_append]
    simp only [List.reverse_cons, List.reverse_nil, List.nil_append, List.singleton_append]
    rw [List.dropWhile_cons_of_pos hc]

/-- A string without the pattern is unchanged by first-occurrence
replacement. -/
theorem replaceFirst_of_not_mem {pat : Char} {repl s : List Char} (h : pat ∉ s) :
    replaceFirst pat repl s = s := by
  induction s with
  | nil => rfl
  | cons c rest ih =>
    unfold replaceFirst
    rw [if_neg ?_, ih (fun hm => h (List.mem_cons_of_mem _ hm))]
    intro hbeq
    exact h (by simp [beq_iff_eq.mp hbeq])

/-- Replacing a character by itself (as a one-character string) is the
identity. -/
theorem replaceFirst_self (pat : Char) :
    ∀ s : List Char, replaceFirst pat [pat] s = s := by
  intro s
  induction s with
  | nil => rfl
  | cons c rest ih =>
    unfold replaceFirst
    by_cases hc : c = pat
    · subst hc
      rw [if_pos (beq_self_eq_true c)]
      rfl
    · rw [if_neg (by simp [hc]), ih]

/-- First-occurrence replacement at the first occurrence. -/
theorem replaceFirst_append {pat : Char} {repl u v : List Char} (h : pat ∉ u) :
    replaceFirst pat repl (u ++ pat :: v) = u ++ repl ++ v := by
  induction u with
  | nil =>
    simp only [List.nil_append]
    unfold replaceFirst
    rw [if_pos (beq_self_eq_true pat)]
  | cons c rest ih =>
    rw [List.cons_append]
    unfold replaceFirst
    rw [if_neg ?_]
    · rw [ih (fun hm => h (List.mem_cons_of_mem _ hm))]
      simp
    · intro hbeq
      exact h (by simp [beq_iff_eq.mp hbeq])

/-- stripCR on a cons. -/
theorem stripCR_cons (c : Char) (s : List Char) :
    stripCR (c :: s) = if c = '\r' then stripCR s else c :: stripCR s := by
  unfold stripCR
  by_cases hc : c = '\r'
  · rw [if_pos hc, List.filter_cons_of_neg (by simp [hc])]
  · rw [if_neg hc, List.filter_cons_of_pos (by simp [hc])]

/-- stripCR distributes over concatenation. -/
theorem stripCR_append (a b : List Char) :
    stripCR (a ++ b) = stripCR a ++ stripCR b := by
  unfold stripCR
  exact List.filter_append a b

/-- A string without carriage returns is unchanged by stripCR. -/
theorem stripCR_of_not_mem {s : List Char} (h : '\r' ∉ s) : stripCR s = s := by
  apply List.filter_eq_self.mpr
  intro c hc
  simp only [Bool.not_eq_true']
  apply beq_eq_false_iff_ne.mpr
  intro hcr
  exact h (hcr ▸ hc)

/-- stripCR turns a CRLF-replaced body back into the LF-replaced one. -/
theorem stripCR_replaceFirst_crlf {s : List Char} (h : '\r' ∉ s) :
    stripCR (replaceFirst '\n' ('\r' :: ['\n']) s) = replaceFirst '\n' ['\n'] s := by
  induction s with
  | nil => rfl
  | cons c rest ih =>
    by_cases hc : c = '\n'
    · subst hc
      unfold replaceFirst
      rw [if_pos (beq_self_eq_true _), if_pos (beq_self_eq_true _)]
      rw [show ('\r' :: ['\n']) ++ rest = '\r' :: ('\n' :: rest) from rfl]
      rw [stripCR_cons, if_pos rfl, stripCR_cons, if_neg (by decide)]
      rw [stripCR_of_not_mem (fun hm => h (List.mem_cons_of_mem _ hm))]
      rfl
    · unfold replaceFirst
      rw [if_neg (by simp [hc]), if_neg (by simp [hc])]
      rw [stripCR_cons, if_neg (fun hcr => h (by simp [hcr]))]
      rw [ih (fun hm => h (List.mem_cons_of_mem _ hm))]

/-- Splitting a separator-free string yields that string alone. -/
theorem splitOnChar_of_not_mem {sep : Char} {s : List Char} (h : sep ∉ s) :
    splitOnChar sep s = [s] := by
  induction s with
  | nil => rfl
  | cons c rest ih =>
    unfold splitOnChar
    rw [if_neg ?_]
    · rw [ih (fun hm => h (List.mem_cons_of_mem _ hm))]
    · intro hbeq
      exact h (by simp [beq_iff_eq.mp hbeq])

/-- Splitting at the first separator occurrence. -/
theorem splitOnChar_append {sep : Char} {u v : List Char} (h : sep ∉ u) :
    splitOnChar sep (u ++ sep :: v) = u :: splitOnChar sep v := by
  induction u with
  | nil =>
    simp only [List.nil_append]
    conv_lhs => rw [splitOnChar]
    rw [if_pos (beq_self_eq_true sep)]
  | cons c rest ih =>
    rw [List.cons_append]
    conv_lhs => rw [splitOnChar]
    rw [if_neg ?_]
    · rw [ih (fun hm => h (List.mem_cons_of_mem _ hm))]
    · intro hbeq
      exact h (by simp [beq_iff_eq.mp hbeq])

/-! ## Lemmas on the cue-pattern matcher -/

theorem takeDigits_decomp : ∀ xs : List Char,
    xs = (takeDigits xs).1 ++ (takeDigits xs).2 ∧
      (∀ c ∈ (takeDigits xs).1, c.isDigit = true) := by
  intro xs
  induction xs with
  | nil => exact ⟨rfl, by simp [takeDigits]⟩
  | cons c rest ih =>
    obtain ⟨ih1, ih2⟩ := ih
    unfold takeDigits
    by_cases hc : c.isDigit = true
    · rw [if_pos hc]
      dsimp only
      refine ⟨?_, ?_⟩
      · rw [List.cons_append, ← ih1]
      · intro x hx
        rcases List.mem_cons.mp hx with rfl | hx2
        · exact hc
        · exact ih2 x hx2
    · rw [if_neg hc]
      exact ⟨rfl, by simp⟩

theorem takeUpTo_decomp : ∀ (n : ℕ) (xs : List Char),
    xs = (takeUpTo n xs).1 ++ (takeUpTo n xs).2 ∧
      (∀ c ∈ (takeUpTo n xs).1, c.isDigit = true) ∧
      (takeUpTo n xs).1.length ≤ n := by
  intro n xs
  induction xs generalizing n with
  | nil => exact ⟨rfl, by simp [takeUpTo], by simp [takeUpTo]⟩
  | cons c rest ih =>
    unfold takeUpTo
    by_cases hn : 0 < n
    · rw [if_pos hn]
      by_cases hc : c.isDigit = true
      · rw [if_pos hc]
        dsimp only
        obtain ⟨ih1, ih2, ih3⟩ := ih (n - 1)
        refine ⟨?_, ?_, ?_⟩
        · rw [List.cons_append, ← ih1]
        · intro x hx
          rcases List.mem_cons.mp hx with rfl | hx2
          · exact hc
          · exact ih2 x hx2
        · simp only [List.length_cons]
          omega
      · rw [if_neg hc]
        exact ⟨rfl, by simp, by simp⟩
    · rw [if_neg hn]
      exact ⟨rfl, by simp, by simp⟩

theorem takeDigits_cons (c : Char) (rest : List Char) :
    takeDigits (c :: rest) =
      if c.isDigit then (c :: (takeDigits rest).1, (takeDigits rest).2)
      else ([], c :: rest) := by
  by_cases hc : c.isDigit = true
  · rw [if_pos hc]
    conv_lhs => rw [takeDigits]
    rw [if_pos hc]
  · rw [if_neg hc]
    conv_lhs => rw [takeDigits]
    rw [if_neg hc]

theorem takeUpTo_cons (n : ℕ) (c : Char) (rest : List Char) :
    takeUpTo n (c :: rest) =
      if 0 < n then
        (if c.isDigit then (c :: (takeUpTo (n - 1) rest).1, (takeUpTo (n - 1) rest).2)
         else ([], c :: rest))
      else ([], c :: rest) := by
  by_cases hn : 0 < n
  · rw [if_pos hn]
    by_cases hc : c.isDigit = true
    · rw [if_pos hc]
      conv_lhs => rw [takeUpTo]
      rw [if_pos hn, if_pos hc]
    · rw [if_neg hc]
      conv_lhs => rw [takeUpTo]
      rw [if_pos hn, if_neg hc]
  · rw [if_neg hn]
    conv_lhs => rw [takeUpTo]
    rw [if_neg hn]

theorem expectLit_decomp : ∀ (lit xs r : List Char),
    expectLit lit xs = some r → xs = lit ++ r := by
  intro lit
  induction lit with
  | nil =>
    intro xs r h
    simp only [expectLit] at h
    rw [Option.some.inj h]
    rfl
  | cons l ls ih =>
    intro xs r h
    match xs with
    | [] => exact absurd h (by simp [expectLit])
    | x :: xs' =>
      unfold expectLit at h
      by_cases hx : (x == l) = true
      · rw [if_pos hx] at h
        rw [List.cons_append, ← ih xs' r h, beq_iff_eq.mp hx]
      · rw [if_neg hx] at h
        exact absurd h (by simp)

theorem matchTs_decomp {sep : Char} {xs t r : List Char}
    (h : matchTs sep xs = some (t, r)) : xs = t ++ r ∧ IsTsTok sep t := by
  unfold matchTs at h
  dsimp only at h
  by_cases h1 : (takeUpTo 2 xs).1.isEmpty
  · rw [if_pos h1] at h
    exact absurd h (by simp)
  · rw [if_neg h1] at h
    rcases hE1 : expectLit [':'] (takeUpTo 2 xs).2 with _ | r2
    · rw [hE1] at h
      exact absurd h (by simp)
    · rw [hE1] at h
      dsimp only at h
      by_cases h2 : (takeUpTo 2 r2).1.length ≠ 2
      · rw [if_pos h2] at h
        exact absurd h (by simp)
      · rw [if_neg h2] at h
        push_neg at h2
        rcases hE2 : expectLit [':'] (takeUpTo 2 r2).2 with _ | r4
        · rw [hE2] at h
          exact absurd h (by simp)
        · rw [hE2] at h
          dsimp only at h
          by_cases h3 : (takeUpTo 2 r4).1.length ≠ 2
          · rw [if_pos h3] at h
            exact absurd h (by simp)
          · rw [if_neg h3] at h
            push_neg at h3
            rcases hE3 : expectLit [sep] (takeUpTo 2 r4).2 with _ | r6
            · rw [hE3] at h
              exact absurd h (by simp)
            · rw [hE3] at h
              dsimp only at h
              by_cases h4 : (takeUpTo 3 r6).1.isEmpty
              · rw [if_pos h4] at h
                exact absurd h (by simp)
              · rw [if_neg h4] at h
                have hpair := Option.some.inj h
                have ht : (takeUpTo 2 xs).1 ++ ':' :: (takeUpTo 2 r2).1 ++ ':' ::
                    (takeUpTo 2 r4).1 ++ sep :: (takeUpTo 3 r6).1 = t :=
                  congrArg Prod.fst hpair
                have hr : (takeUpTo 3 r6).2 = r := congrArg Prod.snd hpair
                obtain ⟨d1, g1, l1⟩ := takeUpTo_decomp 2 xs
                obtain ⟨d2, g2, l2⟩ := takeUpTo_decomp 2 r2
                obtain ⟨d3, g3, l3⟩ := takeUpTo_decomp 2 r4
                obtain ⟨d4, g4, l4⟩ := takeUpTo_decomp 3 r6
                have e1 := expectLit_decomp _ _ _ hE1
                have e2 := expectLit_decomp _ _ _ hE2
                have e3 := expectLit_decomp _ _ _ hE3
                have hne1 : 1 ≤ (takeUpTo 2 xs).1.length := by
                  rcases hv : (takeUpTo 2 xs).1 with _ | ⟨z, zs⟩
                  · rw [hv] at h1
                    exact absurd rfl h1
                  · simp
                have hne4 : 1 ≤ (takeUpTo 3 r6).1.length := by
                  rcases hv : (takeUpTo 3 r6).1 with _ | ⟨z, zs⟩
                  · rw [hv] at h4
                    exact absurd rfl h4
                  · simp
                constructor
                · conv_lhs => rw [d1]
                  rw [e1]
                  conv_lhs => rw [show r2 = (takeUpTo 2 r2).1 ++ (takeUpTo 2 r2).2 from d2]
                  rw [e2]
                  conv_lhs => rw [show r4 = (takeUpTo 2 r4).1 ++ (takeUpTo 2 r4).2 from d3]
                  rw [e3]
                  conv_lhs => rw [show r6 = (takeUpTo 3 r6).1 ++ (takeUpTo 3 r6).2 from d4]
                  rw [hr, ← ht]
                  simp
                · exact ⟨(takeUpTo 2 xs).1, (takeUpTo 2 r2).1, (takeUpTo 2 r4).1,
                    (takeUpTo 3 r6).1, ht.symm, hne1, l1, h2, h3, hne4, l4, g1, g2, g3, g4⟩

theorem matchAt_decomp {sep : Char} {xs a t1 t2 r : List Char}
    (h : matchAt sep xs = some (a, t1, t2, r)) :
    xs = a ++ '\n' :: (t1 ++ (arrowLit ++ (t2 ++ r))) ∧
      IsIdTok a ∧ IsTsTok sep t1 ∧ IsTsTok sep t2 := by
  unfold matchAt at h
  dsimp only at h
  by_cases h1 : (takeDigits xs).1.isEmpty
  · rw [if_pos h1] at h
    exact absurd h (by simp)
  · rw [if_neg h1] at h
    rcases hE1 : expectLit ['\n'] (takeDigits xs).2 with _ | r1
    · rw [hE1] at h
      exact absurd h (by simp)
    · rw [hE1] at h
      dsimp only at h
      rcases hM1 : matchTs sep r1 with _ | ⟨u1, r2⟩
      · rw [hM1] at h
        exact absurd h (by simp)
      · rw [hM1] at h
        dsimp only at h
        rcases hE2 : expectLit arrowLit r2 with _ | r3
        · rw [hE2] at h
          exact absurd h (by simp)
        · rw [hE2] at h
          dsimp only at h
          rcases hM2 : matchTs sep r3 with _ | ⟨u2, r4⟩
          · rw [hM2] at h
            exact absurd h (by simp)
          · rw [hM2] at h
            dsimp only at h
            obtain ⟨ha, hrest⟩ := Prod.mk.injEq .. ▸ Option.some.inj h
            obtain ⟨h01, h02⟩ := Prod.mk.injEq .. ▸ hrest
            obtain ⟨h03, h04⟩ := Prod.mk.injEq .. ▸ h02
            obtain ⟨dd, gd⟩ := takeDigits_decomp xs
            have e1 := expectLit_decomp _ _ _ hE1
            obtain ⟨m1, s1⟩ := matchTs_decomp hM1
            have e2 := expectLit_decomp _ _ _ hE2
            obtain ⟨m2, s2⟩ := matchTs_decomp hM2
            have hne : (takeDigits xs).1 ≠ [] := by
              intro hv
              rw [hv] at h1
              exact absurd rfl h1
            refine ⟨?_, ⟨ha ▸ hne, ha ▸ gd⟩, h01 ▸ s1, h03 ▸ s2⟩
            conv_lhs => rw [dd]
            rw [e1]
            conv_lhs => rw [show r1 = u1 ++ r2 from m1]
            rw [e2]
            conv_lhs => rw [show r3 = u2 ++ r4 from m2]
            rw [ha, h01, h03, h04]
            simp

/-- The matcher consumes at least one character on success. -/
theorem matchAt_consumed {sep : Char} {xs a t1 t2 r : List Char}
    (h : matchAt sep xs = some (a, t1, t2, r)) : r.length < xs.length := by
  obtain ⟨hx, ⟨hne, -⟩, -, -⟩ := matchAt_decomp h
  rw [hx]
  simp only [List.length_append, List.length_cons]
  have : 1 ≤ a.length := List.length_pos.mpr hne
  omega

theorem matchAt_nil (sep : Char) : matchAt sep [] = none := rfl

/-- The matcher fails when the input does not start with a digit. -/
theorem matchAt_cons_nondigit {sep : Char} {xs : List Char}
    (h : headIsDigit xs = false) : matchAt sep xs = none := by
  rcases xs with _ | ⟨c, rest⟩
  · rfl
  · have hc : c.isDigit = false := by
      dsimp only [headIsDigit] at h
      exact h
    have hTD : takeDigits (c :: rest) = ([], c :: rest) := by
      unfold takeDigits
      rw [if_neg (by simp [hc])]
    unfold matchAt
    rw [hTD]
    dsimp only
    rw [if_pos (by simp)]

/-- Appending a non-digit-headed tail does not disturb the greedy digit
run. -/
theorem takeDigits_append_nd {v : List Char} (hv : headIsDigit v = false) :
    ∀ u : List Char, takeDigits (u ++ v) = ((takeDigits u).1, (takeDigits u).2 ++ v) := by
  intro u
  induction u with
  | nil =>
    simp only [List.nil_append]
    rcases v with _ | ⟨c, w⟩
    · rfl
    · have hc : c.isDigit = false := by
        dsimp only [headIsDigit] at hv
        exact hv
      unfold takeDigits
      rw [if_neg (by simp [hc])]
      rfl
  | cons c rest ih =>
    rw [List.cons_append]
    unfold takeDigits
    by_cases hc : c.isDigit = true
    · rw [if_pos hc, if_pos hc, ih]
    · rw [if_neg hc, if_neg hc]
      rw [List.cons_append]

theorem takeUpTo_append_nd {v : List Char} (hv : headIsDigit v = false) :
    ∀ (n : ℕ) (u : List Char),
      takeUpTo n (u ++ v) = ((takeUpTo n u).1, (takeUpTo n u).2 ++ v) := by
  intro n u
  induction u generalizing n with
  | nil =>
    simp only [List.nil_append]
    rcases v with _ | ⟨c, w⟩
    · rfl
    · have hc : c.isDigit = false := by
        dsimp only [headIsDigit] at hv
        exact hv
      unfold takeUpTo
      by_cases hn : 0 < n
      · rw [if_pos hn, if_neg (by simp [hc])]
        rfl
      · rw [if_neg hn]
        rfl
  | cons c rest ih =>
    rw [List.cons_append]
    unfold takeUpTo
    by_cases hn : 0 < n
    · rw [if_pos hn, if_pos hn]
      by_cases hc : c.isDigit = true
      · rw [if_pos hc, if_pos hc]
        dsimp only
        rw [ih (n - 1)]
      · rw [if_neg hc, if_neg hc, List.cons_append]
    · rw [if_neg hn, if_neg hn, List.cons_append]

/-- Appending past a non-exhausted stop does not disturb the greedy
digit run. -/
theorem takeDigits_append_ne {u : List Char} (h : (takeDigits u).2 ≠ []) (v : List Char) :
    takeDigits (u ++ v) = ((takeDigits u).1, (takeDigits u).2 ++ v) := by
  induction u with
  | nil => exact absurd rfl h
  | cons c rest ih =>
    rw [List.cons_append, takeDigits_cons, takeDigits_cons]
    by_cases hc : c.isDigit = true
    · rw [if_pos hc, if_pos hc]
      rw [takeDigits_cons, if_pos hc] at h
      dsimp only at h
      rw [ih h]
    · rw [if_neg hc, if_neg hc, List.cons_append]

theorem takeUpTo_eq_of_pos {n : ℕ} {c : Char} {rest : List Char} (hn : 0 < n)
    (hc : c.isDigit = true) :
    takeUpTo n (c :: rest) = (c :: (takeUpTo (n - 1) rest).1, (takeUpTo (n - 1) rest).2) := by
  rw [takeUpTo_cons, if_pos hn, if_pos hc]

theorem takeUpTo_eq_of_stop {n : ℕ} {c : Char} {rest : List Char}
    (h : ¬(0 < n) ∨ c.isDigit = false) :
    takeUpTo n (c :: rest) = ([], c :: rest) := by
  rw [takeUpTo_cons]
  rcases h with h | h
  · rw [if_neg h]
  · by_cases hn : 0 < n
    · rw [if_pos hn, if_neg (by simp [h])]
    · rw [if_neg hn]

theorem takeUpTo_append_ne {u : List Char} {n : ℕ} (h : (takeUpTo n u).2 ≠ [])
    (v : List Char) :
    takeUpTo n (u ++ v) = ((takeUpTo n u).1, (takeUpTo n u).2 ++ v) := by
  induction u generalizing n with
  | nil => exact absurd rfl h
  | cons c rest ih =>
    rw [List.cons_append]
    by_cases hn : 0 < n
    · by_cases hc : c.isDigit = true
      · rw [takeUpTo_eq_of_pos hn hc] at h ⊢
        dsimp only at h ⊢
        rw [takeUpTo_eq_of_pos hn hc, ih h]
      · rw [takeUpTo_eq_of_stop (Or.inr (by simp [hc])),
          takeUpTo_eq_of_stop (Or.inr (by simp [hc])), List.cons_append]
    · rw [takeUpTo_eq_of_stop (Or.inl hn), takeUpTo_eq_of_stop (Or.inl hn), List.cons_append]

/-- Appending preserves non-emptiness of the taken digit run. -/
theorem takeUpTo_append_ne_nil {u : List Char} {n : ℕ} (h : (takeUpTo n u).1 ≠ [])
    (v : List Char) : (takeUpTo n (u ++ v)).1 ≠ [] := by
  induction u generalizing n with
  | nil => exact absurd rfl h
  | cons c rest ih =>
    rw [List.cons_append]
    by_cases hn : 0 < n
    · by_cases hc : c.isDigit = true
      · rw [takeUpTo_eq_of_pos hn hc]
        simp
      · rw [takeUpTo_eq_of_stop (Or.inr (by simp [hc]))] at h
        exact absurd rfl h
    · rw [takeUpTo_eq_of_stop (Or.inl hn)] at h
      exact absurd rfl h

theorem expectLit_cons (l : Char) (ls : List Char) (x : Char) (xs : List Char) :
    expectLit (l :: ls) (x :: xs) = if x == l then expectLit ls xs else none := by
  by_cases hx : (x == l) = true
  · rw [if_pos hx]
    conv_lhs => rw [expectLit]
    rw [if_pos hx]
  · rw [if_neg hx]
    conv_lhs => rw [expectLit]
    rw [if_neg hx]

/-- A successful literal consume extends along any appended tail. -/
theorem expectLit_append_some {lit u r : List Char} (h : expectLit lit u = some r)
    (v : List Char) : expectLit lit (u ++ v) = some (r ++ v) := by
  induction lit generalizing u with
  | nil =>
    simp only [expectLit] at h
    rw [← Option.some.inj h]
    rfl
  | cons l ls ih =>
    match u with
    | [] => exact absurd h (by simp [expectLit])
    | x :: xs =>
      rw [expectLit_cons] at h
      rw [List.cons_append, expectLit_cons]
      by_cases hx : (x == l) = true
      · rw [if_pos hx] at h
        rw [if_pos hx]
        exact ih h
      · rw [if_neg hx] at h
        exact absurd h (by simp)

/-- A literal without newline behaves the same along a newline-headed
tail: success extends, failure stays failure. -/
theorem expectLit_append_nl {lit : List Char} (hlit : '\n' ∉ lit) :
    ∀ (u w : List Char),
      expectLit lit (u ++ '\n' :: w) = (expectLit lit u).map (fun r => r ++ '\n' :: w) := by
  induction lit with
  | nil => intro u w; rfl
  | cons l ls ih =>
    intro u w
    match u with
    | [] =>
      simp only [List.nil_append]
      rw [expectLit_cons, if_neg ?_]
      · rfl
      · intro hbeq
        have hl := beq_iff_eq.mp hbeq
        exact hlit (by rw [hl]; exact List.mem_cons_self _ _)
    | x :: xs =>
      rw [List.cons_append, expectLit_cons, expectLit_cons]
      by_cases hx : (x == l) = true
      · rw [if_pos hx, if_pos hx]
        exact ih (fun hm => hlit (List.mem_cons_of_mem _ hm)) xs w
      · rw [if_neg hx, if_neg hx]
        rfl

/-- Along a newline-headed tail the timestamp matcher behaves exactly as
on the bare input (the separator is never a newline for the two patterns
at hand). -/
theorem matchTs_append_nl {sep : Char} (hsep : ('\n' == sep) = false) (u w : List Char) :
    matchTs sep (u ++ '\n' :: w) =
      (matchTs sep u).map (fun p => (p.1, p.2 ++ '\n' :: w)) := by
  have hnd : headIsDigit ('\n' :: w) = false := rfl
  unfold matchTs
  rw [takeUpTo_append_nd hnd 2 u]
  dsimp only
  by_cases h1 : (takeUpTo 2 u).1.isEmpty
  · rw [if_pos h1, if_pos h1]
    rfl
  · rw [if_neg h1, if_neg h1]
    rw [expectLit_append_nl (by decide) (takeUpTo 2 u).2 w]
    rcases hE1 : expectLit [':'] (takeUpTo 2 u).2 with _ | r2
    · rfl
    · dsimp only [Option.map]
      rw [takeUpTo_append_nd hnd 2 r2]
      dsimp only
      by_cases h2 : (takeUpTo 2 r2).1.length ≠ 2
      · rw [if_pos h2, if_pos h2]
      · rw [if_neg h2, if_neg h2]
        rw [expectLit_append_nl (by decide) (takeUpTo 2 r2).2 w]
        rcases hE2 : expectLit [':'] (takeUpTo 2 r2).2 with _ | r4
        · rfl
        · dsimp only [Option.map]
          rw [takeUpTo_append_nd hnd 2 r4]
          dsimp only
          by_cases h3 : (takeUpTo 2 r4).1.length ≠ 2
          · rw [if_pos h3, if_pos h3]
          · rw [if_neg h3, if_neg h3]
            rw [expectLit_append_nl ?_ (takeUpTo 2 r4).2 w]
            · rcases hE3 : expectLit [sep] (takeUpTo 2 r4).2 with _ | r6
              · rfl
              · dsimp only [Option.map]
                rw [takeUpTo_append_nd hnd 3 r6]
                dsimp only
                by_cases h4 : (takeUpTo 3 r6).1.isEmpty
                · rw [if_pos h4, if_pos h4]
                · rw [if_neg h4, if_neg h4]
            · intro hm
              rcases List.mem_cons.mp hm with heq | hm2
              · rw [heq] at hsep
                simp at hsep
              · simp at hm2

/-- A successful timestamp match with remaining input extends unchanged
along any appended tail. -/
theorem matchTs_append_some_ne {sep : Char} {u t r : List Char}
    (h : matchTs sep u = some (t, r)) (hr : r ≠ []) (v : List Char) :
    matchTs sep (u ++ v) = some (t, r ++ v) := by
  unfold matchTs at h
  dsimp only at h
  by_cases h1 : (takeUpTo 2 u).1.isEmpty
  · rw [if_pos h1] at h
    exact absurd h (by simp)
  · rw [if_neg h1] at h
    rcases hE1 : expectLit [':'] (takeUpTo 2 u).2 with _ | r2
    · rw [hE1] at h
      exact absurd h (by simp)
    · rw [hE1] at h
      dsimp only at h
      by_cases h2 : (takeUpTo 2 r2).1.length ≠ 2
      · rw [if_pos h2] at h
        exact absurd h (by simp)
      · rw [if_neg h2] at h
        rcases hE2 : expectLit [':'] (takeUpTo 2 r2).2 with _ | r4
        · rw [hE2] at h
          exact absurd h (by simp)
        · rw [hE2] at h
          dsimp only at h
          by_cases h3 : (takeUpTo 2 r4).1.length ≠ 2
          · rw [if_pos h3] at h
            exact absurd h (by simp)
          · rw [if_neg h3] at h
            rcases hE3 : expectLit [sep] (takeUpTo 2 r4).2 with _ | r6
            · rw [hE3] at h
              exact absurd h (by simp)
            · rw [hE3] at h
              dsimp only at h
              by_cases h4 : (takeUpTo 3 r6).1.isEmpty
              · rw [if_pos h4] at h
                exact absurd h (by simp)
              · rw [if_neg h4] at h
                have hpair := Option.some.inj h
                have ht := congrArg Prod.fst hpair
                have hrr := congrArg Prod.snd hpair
                dsimp only at ht hrr
                have hT1ne : (takeUpTo 2 u).2 ≠ [] := by
                  intro hnil
                  rw [hnil] at hE1
                  exact absurd hE1 (by simp [expectLit])
                have hT2ne : (takeUpTo 2 r2).2 ≠ [] := by
                  intro hnil
                  rw [hnil] at hE2
                  exact absurd hE2 (by simp [expectLit])
                have hT3ne : (takeUpTo 2 r4).2 ≠ [] := by
                  intro hnil
                  rw [hnil] at hE3
                  exact absurd hE3 (by simp [expectLit])
                have hT4ne : (takeUpTo 3 r6).2 ≠ [] := by
                  intro hnil
                  rw [hnil] at hrr
                  exact hr hrr.symm
                unfold matchTs
                rw [takeUpTo_append_ne hT1ne v]
                dsimp only
                rw [if_neg h1, expectLit_append_some hE1 v]
                dsimp only
                rw [takeUpTo_append_ne hT2ne v]
                dsimp only
                rw [if_neg h2, expectLit_append_some hE2 v]
                dsimp only
                rw [takeUpTo_append_ne hT3ne v]
                dsimp only
                rw [if_neg h3, expectLit_append_some hE3 v]
                dsimp only
                rw [takeUpTo_append_ne hT4ne v]
                dsimp only
                rw [if_neg h4]
                rw [ht, ← hrr]

/-- A successful timestamp match stays successful along any appended
tail. -/
theorem matchTs_append_isSome {sep : Char} {u t r : List Char}
    (h : matchTs sep u = some (t, r)) (v : List Char) :
    ∃ t2 r2, matchTs sep (u ++ v) = some (t2, r2) := by
  unfold matchTs at h
  dsimp only at h
  by_cases h1 : (takeUpTo 2 u).1.isEmpty
  · rw [if_pos h1] at h
    exact absurd h (by simp)
  · rw [if_neg h1] at h
    rcases hE1 : expectLit [':'] (takeUpTo 2 u).2 with _ | r2
    · rw [hE1] at h
      exact absurd h (by simp)
    · rw [hE1] at h
      dsimp only at h
      by_cases h2 : (takeUpTo 2 r2).1.length ≠ 2
      · rw [if_pos h2] at h
        exact absurd h (by simp)
      · rw [if_neg h2] at h
        rcases hE2 : expectLit [':'] (takeUpTo 2 r2).2 with _ | r4
        · rw [hE2] at h
          exact absurd h (by simp)
        · rw [hE2] at h
          dsimp only at h
          by_cases h3 : (takeUpTo 2 r4).1.length ≠ 2
          · rw [if_pos h3] at h
            exact absurd h (by simp)
          · rw [if_neg h3] at h
            rcases hE3 : expectLit [sep] (takeUpTo 2 r4).2 with _ | r6
            · rw [hE3] at h
              exact absurd h (by simp)
            · rw [hE3] at h
              dsimp only at h
              by_cases h4 : (takeUpTo 3 r6).1.isEmpty
              · rw [if_pos h4] at h
                exact absurd h (by simp)
              · have hT1ne : (takeUpTo 2 u).2 ≠ [] := by
                  intro hnil
                  rw [hnil] at hE1
                  exact absurd hE1 (by simp [expectLit])
                have hT2ne : (takeUpTo 2 r2).2 ≠ [] := by
                  intro hnil
                  rw [hnil] at hE2
                  exact absurd hE2 (by simp [expectLit])
                have hT3ne : (takeUpTo 2 r4).2 ≠ [] := by
                  intro hnil
                  rw [hnil] at hE3
                  exact absurd hE3 (by simp [expectLit])
                have h4ne : (takeUpTo 3 r6).1 ≠ [] := by
                  intro hnil
                  rw [hnil] at h4
                  exact h4 rfl
                unfold matchTs
                rw [takeUpTo_append_ne hT1ne v]
                dsimp only
                rw [if_neg h1, expectLit_append_some hE1 v]
                dsimp only
                rw [takeUpTo_append_ne hT2ne v]
                dsimp only
                rw [if_neg h2, expectLit_append_some hE2 v]
                dsimp only
                rw [takeUpTo_append_ne hT3ne v]
                dsimp only
                rw [if_neg h3, expectLit_append_some hE3 v]
                dsimp only
                rw [if_neg ?_]
                · exact ⟨_, _, rfl⟩
                · intro hempty
                  exact takeUpTo_append_ne_nil h4ne v (List.isEmpty_iff.mp hempty)

/-- A successful match of the cue pattern stays successful along any
appended tail. -/
theorem matchAt_append_isSome {sep : Char} {u : List Char}
    {a t1 t2 r : List Char} (h : matchAt sep u = some (a, t1, t2, r)) (v : List Char) :
    ∃ q, matchAt sep (u ++ v) = some q := by
  unfold matchAt at h
  dsimp only at h
  by_cases h1 : (takeDigits u).1.isEmpty
  · rw [if_pos h1] at h
    exact absurd h (by simp)
  · rw [if_neg h1] at h
    rcases hE1 : expectLit ['\n'] (takeDigits u).2 with _ | r1
    · rw [hE1] at h
      exact absurd h (by simp)
    · rw [hE1] at h
      dsimp only at h
      rcases hM1 : matchTs sep r1 with _ | ⟨u1, r2⟩
      · rw [hM1] at h
        exact absurd h (by simp)
      · rw [hM1] at h
        dsimp only at h
        rcases hE2 : expectLit arrowLit r2 with _ | r3
        · rw [hE2] at h
          exact absurd h (by simp)
        · rw [hE2] at h
          dsimp only at h
          rcases hM2 : matchTs sep r3 with _ | ⟨u2, r4⟩
          · rw [hM2] at h
            exact absurd h (by simp)
          · have hT1ne : (takeDigits u).2 ≠ [] := by
              intro hnil
              rw [hnil] at hE1
              exact absurd hE1 (by simp [expectLit])
            have hr2ne : r2 ≠ [] := by
              intro hnil
              rw [hnil] at hE2
              exact absurd hE2 (by simp [arrowLit, expectLit])
            obtain ⟨t2x, r2x, hM2x⟩ := matchTs_append_isSome hM2 v
            unfold matchAt
            rw [takeDigits_append_ne hT1ne v]
            dsimp only
            rw [if_neg h1, expectLit_append_some hE1 v]
            dsimp only
            rw [matchTs_append_some_ne hM1 hr2ne v]
            dsimp only
            rw [expectLit_append_some hE2 v]
            dsimp only
            rw [hM2x]
            exact ⟨_, rfl⟩

/-- Contrapositive form: a failing match on an extended input fails on
the bare one too. -/
theorem matchAt_append_none {sep : Char} {u v : List Char}
    (h : matchAt sep (u ++ v) = none) : matchAt sep u = none := by
  rcases hm : matchAt sep u with _ | ⟨a, t1, t2, r⟩
  · rfl
  · obtain ⟨q, hq⟩ := matchAt_append_isSome hm v
    rw [hq] at h
    exact absurd h (by simp)

/-- No suffix of a slice of a match-free string starts a match. -/
theorem noMatchSub_of_slice {sep : Char} {xs0 b w : List Char} {m : ℕ}
    (hglob : ∀ n, matchAt sep (xs0.drop n) = none) (hsl : xs0.drop m = b ++ w) :
    NoMatchSub sep b := by
  intro n
  have hdrop : xs0.drop (m + n) = b.drop n ++ w ∨ b.length ≤ n := by
    by_cases hn : n ≤ b.length
    · left
      rw [← List.drop_drop, hsl, List.drop_append_of_le_length hn]
    · right
      omega
  rcases hdrop with hd | hd
  · have := hglob (m + n)
    rw [hd] at this
    exact matchAt_append_none this
  · rw [List.drop_eq_nil_of_le hd]
    exact matchAt_nil sep

/-- Trimming preserves match-freeness. -/
theorem noMatchSub_trim {sep : Char} {s : List Char} (h : NoMatchSub sep s) :
    NoMatchSub sep (trim s) := by
  obtain ⟨u, w, huw⟩ := trim_infix s
  refine noMatchSub_of_slice h (show s.drop u.length = trim s ++ w from ?_)
  conv_lhs => rw [huw]
  rw [List.append_assoc]
  exact List.drop_left u (trim s ++ w)

/-- If the cue pattern fails at a position, it also fails there after a
double-newline junction followed by anything: a match can never straddle
the junction, because the timestamp part of the pattern cannot contain a
newline. -/
theorem matchAt_junction_aux {sep : Char} (hsep : ('\n' == sep) = false) {u K : List Char}
    (hu : matchAt sep u = none) :
    matchAt sep (u ++ '\n' :: '\n' :: K) = none := by
  have hv : headIsDigit ('\n' :: '\n' :: K) = false := rfl
  unfold matchAt at hu ⊢
  dsimp only at hu ⊢
  rw [takeDigits_append_nd hv u]
  dsimp only
  by_cases h1 : (takeDigits u).1.isEmpty
  · rw [if_pos h1]
  · rw [if_neg h1] at hu ⊢
    rcases hd2 : (takeDigits u).2 with _ | ⟨c, r0⟩
    · simp only [List.nil_append]
      rw [expectLit_cons, if_pos (beq_self_eq_true _)]
      dsimp only [expectLit]
      have hts : matchTs sep ('\n' :: K) = none := by
        unfold matchTs
        rw [takeUpTo_eq_of_stop (Or.inr (by decide))]
        dsimp only
        rw [if_pos (by simp)]
      rw [hts]
    · rw [hd2] at hu
      rw [List.cons_append]
      rw [expectLit_cons] at hu ⊢
      by_cases hc : (c == '\n') = true
      · rw [if_pos hc] at hu ⊢
        dsimp only [expectLit] at hu ⊢
        rw [matchTs_append_nl hsep r0 ('\n' :: K)]
        cases hM1 : matchTs sep r0 with
        | none => rfl
        | some p =>
          rw [hM1] at hu
          dsimp only [Option.map] at hu ⊢
          rw [expectLit_append_nl (by decide) p.2 ('\n' :: K)]
          cases hE2 : expectLit arrowLit p.2 with
          | none => rfl
          | some r3 =>
            rw [hE2] at hu
            dsimp only [Option.map] at hu ⊢
            rw [matchTs_append_nl hsep r3 ('\n' :: K)]
            cases hM2 : matchTs sep r3 with
            | none => rfl
            | some p2 =>
              rw [hM2] at hu
              dsimp only at hu
              exact absurd hu (by simp)
      · rw [if_neg hc] at hu ⊢

/-! ## Lemmas on the splitter scan -/

theorem regexSplitGo_nil (sep : Char) (fuel : ℕ) (acc : List Char) :
    regexSplitGo sep fuel [] acc = [acc.reverse] := by
  rw [regexSplitGo]

theorem regexSplitGo_succ_some {sep : Char} {c : Char} {rest a t1 t2 rest' : List Char}
    (h : matchAt sep (c :: rest) = some (a, t1, t2, rest')) (f : ℕ) (acc : List Char) :
    regexSplitGo sep (f+1) (c :: rest) acc =
      acc.reverse :: a :: t1 :: t2 :: regexSplitGo sep f rest' [] := by
  conv_lhs => rw [regexSplitGo]
  rw [h]

theorem regexSplitGo_succ_none {sep : Char} {c : Char} {rest : List Char}
    (h : matchAt sep (c :: rest) = none) (f : ℕ) (acc : List Char) :
    regexSplitGo sep (f+1) (c :: rest) acc = regexSplitGo sep f rest (c :: acc) := by
  conv_lhs => rw [regexSplitGo]
  rw [h]

/-- Fuel at least the input length is enough: the result is then
fuel-independent. -/
theorem regexSplitGo_fuel {sep : Char} :
    ∀ (f1 f2 : ℕ) (xs acc : List Char), xs.length ≤ f1 → xs.length ≤ f2 →
      regexSplitGo sep f1 xs acc = regexSplitGo sep f2 xs acc := by
  intro f1
  induction f1 with
  | zero =>
    intro f2 xs acc h1 h2
    have : xs = [] := List.length_eq_zero.mp (by omega)
    subst this
    rw [regexSplitGo_nil, regexSplitGo_nil]
  | succ f ih =>
    intro f2 xs acc h1 h2
    rcases xs with _ | ⟨c, rest⟩
    · rw [regexSplitGo_nil, regexSplitGo_nil]
    · obtain ⟨f2', rfl⟩ : ∃ g, f2 = g + 1 := ⟨f2 - 1, by simp at h2; omega⟩
      cases hm : matchAt sep (c :: rest) with
      | some q =>
        obtain ⟨a, t1, t2, rest'⟩ := q
        have hcons := matchAt_consumed hm
        rw [regexSplitGo_succ_some hm f acc, regexSplitGo_succ_some hm f2' acc]
        rw [ih f2' rest' [] (by simp at h1 hcons ⊢; omega) (by simp at h2 hcons ⊢; omega)]
      | none =>
        rw [regexSplitGo_succ_none hm f acc, regexSplitGo_succ_none hm f2' acc]
        exact ih f2' rest (c :: acc) (by simp at h1 ⊢; omega) (by simp at h2 ⊢; omega)

/-- A scan of a match-free string yields a single token. -/
theorem regexSplitGo_single {sep : Char} :
    ∀ (fuel : ℕ) (xs acc : List Char), xs.length ≤ fuel →
      (∀ n, matchAt sep (xs.drop n) = none) →
      regexSplitGo sep fuel xs acc = [acc.reverse ++ xs] := by
  intro fuel
  induction fuel with
  | zero =>
    intro xs acc h1 _
    have : xs = [] := List.length_eq_zero.mp (by omega)
    subst this
    rw [regexSplitGo_nil, List.append_nil]
  | succ f ih =>
    intro xs acc h1 hnm
    rcases xs with _ | ⟨c, rest⟩
    · rw [regexSplitGo_nil, List.append_nil]
    · have hm : matchAt sep (c :: rest) = none := hnm 0
      rw [regexSplitGo_succ_none hm f acc]
      rw [ih rest (c :: acc) (by simp at h1 ⊢; omega) (fun n => hnm (n + 1))]
      rw [List.reverse_cons, List.append_assoc]
      rfl

/-- Conversely, a single-token scan means the string is match-free. -/
theorem regexSplitGo_single_imp {sep : Char} :
    ∀ (fuel : ℕ) (xs acc : List Char) (y : List Char), xs.length ≤ fuel →
      regexSplitGo sep fuel xs acc = [y] →
      ∀ n, matchAt sep (xs.drop n) = none := by
  intro fuel
  induction fuel with
  | zero =>
    intro xs acc y h1 _ n
    have : xs = [] := List.length_eq_zero.mp (by omega)
    subst this
    rw [List.drop_nil]
    exact matchAt_nil sep
  | succ f ih =>
    intro xs acc y h1 heq n
    rcases xs with _ | ⟨c, rest⟩
    · rw [List.drop_nil]
      exact matchAt_nil sep
    · cases hm : matchAt sep (c :: rest) with
      | some q =>
        obtain ⟨a, t1, t2, rest'⟩ := q
        rw [regexSplitGo_succ_some hm f acc] at heq
        exact absurd heq (by simp)
      | none =>
        rw [regexSplitGo_succ_none hm f acc] at heq
        rcases n with _ | n
        · exact hm
        · rw [List.drop_succ_cons]
          exact ih rest (c :: acc) y (by simp at h1 ⊢; omega) heq n

/-- Master characterization of the splitter scan: the result is a leading
token (the accumulator followed by a match-free piece of the input) and
then well-shaped groups of four. -/
theorem regexSplitGo_shape {sep : Char} {xs0 : List Char} :
    ∀ (fuel : ℕ) (xs acc : List Char), xs.length ≤ fuel →
      (∃ m, xs0.drop m = xs) →
      ∃ mid toks, regexSplitGo sep fuel xs acc = (acc.reverse ++ mid) :: toks ∧
        TokGroups sep xs0 toks ∧
        (∃ w, xs = mid ++ w) ∧
        NoMatchSub sep mid := by
  intro fuel
  induction fuel with
  | zero =>
    intro xs acc hlen _
    have : xs = [] := List.length_eq_zero.mp (by omega)
    subst this
    refine ⟨[], [], ?_, TokGroups.nil, ⟨[], rfl⟩, ?_⟩
    · rw [regexSplitGo_nil, List.append_nil]
    · intro n
      rw [List.drop_nil]
      exact matchAt_nil sep
  | succ f ih =>
    intro xs acc hlen hsub
    rcases xs with _ | ⟨c, rest⟩
    · refine ⟨[], [], ?_, TokGroups.nil, ⟨[], rfl⟩, ?_⟩
      · rw [regexSplitGo_nil, List.append_nil]
      · intro n
        rw [List.drop_nil]
        exact matchAt_nil sep
    · cases hm : matchAt sep (c :: rest) with
      | some q =>
        obtain ⟨a, t1, t2, rest'⟩ := q
        obtain ⟨hdec, hid, hts1, hts2⟩ := matchAt_decomp hm
        have hcons := matchAt_consumed hm
        have hlen' : rest'.length ≤ f := by
          simp only [List.length_cons] at hlen hcons
          omega
        obtain ⟨m, hxs⟩ := hsub
        have hsub' : ∃ m2, xs0.drop m2 = rest' := by
          refine ⟨m + (a ++ '\n' :: (t1 ++ (arrowLit ++ t2))).length, ?_⟩
          rw [← List.drop_drop, hxs, hdec]
          rw [show a ++ '\n' :: (t1 ++ (arrowLit ++ (t2 ++ rest'))) =
            (a ++ '\n' :: (t1 ++ (arrowLit ++ t2))) ++ rest' by simp]
          exact List.drop_left _ _
        obtain ⟨mid2, toks2, heq2, hg2, ⟨w2, hw2⟩, hnm2⟩ := ih rest' [] hlen' hsub'
        simp only [List.reverse_nil, List.nil_append] at heq2
        refine ⟨[], a :: t1 :: t2 :: mid2 :: toks2, ?_, ?_, ⟨c :: rest, rfl⟩, ?_⟩
        · rw [regexSplitGo_succ_some hm f acc, heq2, List.append_nil]
        · refine TokGroups.grp hid hts1 hts2 hnm2 ?_ hg2
          obtain ⟨m2, hm2⟩ := hsub'
          exact ⟨m2, w2, by rw [hm2, hw2]⟩
        · intro n
          rw [List.drop_nil]
          exact matchAt_nil sep
      | none =>
        have hlen' : rest.length ≤ f := by
          simp only [List.length_cons] at hlen
          omega
        obtain ⟨m, hxs⟩ := hsub
        have hsub' : ∃ m2, xs0.drop m2 = rest := by
          refine ⟨m + 1, ?_⟩
          rw [← List.drop_drop, hxs, List.drop_succ_cons, List.drop_zero]
        obtain ⟨mid2, toks2, heq2, hg2, ⟨w2, hw2⟩, hnm2⟩ := ih rest (c :: acc) hlen' hsub'
        refine ⟨c :: mid2, toks2, ?_, hg2, ⟨w2, by rw [List.cons_append, ← hw2]⟩, ?_⟩
        · rw [regexSplitGo_succ_none hm f acc, heq2, List.reverse_cons, List.append_assoc]
          rfl
        · intro n
          rcases n with _ | n
          · rw [List.drop_zero]
            refine matchAt_append_none
              (show matchAt sep ((c :: mid2) ++ w2) = none from ?_)
            rw [show (c :: mid2) ++ w2 = c :: rest from by rw [List.cons_append, ← hw2]]
            exact hm
          · rw [List.drop_succ_cons]
            exact hnm2 n

/-! ## Lemmas on correctFormat -/

theorem fixedStrDigit_id {k : ℕ} {str : List Char} (h : str.length = k) (b : Bool) :
    fixedStrDigit k str b = str := by
  unfold fixedStrDigit
  rw [if_pos h]

theorem fixedStrDigit_le {k : ℕ} {str : List Char} (h1 : str.length ≤ k)
    (hd : ∀ c ∈ str, c.isDigit = true) (b : Bool) :
    (fixedStrDigit k str b).length = k ∧
      (∀ c ∈ fixedStrDigit k str b, c.isDigit = true) := by
  unfold fixedStrDigit
  by_cases he : str.length = k
  · rw [if_pos he]
    exact ⟨he, hd⟩
  · rw [if_neg he, if_neg (by omega)]
    have hrep : ∀ c ∈ List.replicate (k - str.length) '0', c.isDigit = true := by
      intro c hc
      rw [List.eq_of_mem_replicate hc]
      decide
    cases b
    · simp only [Bool.false_eq_true, if_false]
      constructor
      · simp only [List.length_append, List.length_replicate]
        omega
      · intro c hc
        rcases List.mem_append.mp hc with h1 | h1
        · exact hrep c h1
        · exact hd c h1
    · simp only [if_true]
      constructor
      · simp only [List.length_append, List.length_replicate]
        omega
      · intro c hc
        rcases List.mem_append.mp hc with h1 | h1
        · exact hd c h1
        · exact hrep c h1

/-- Characters of a timestamp token (digits, colons, and a comma or
period separator) are not whitespace. -/
theorem tsTok_not_ws {sep : Char} {t : List Char} (ht : IsTsTok sep t)
    (hsep : sep = ',' ∨ sep = '.') : ∀ c ∈ t, jsWs c = false := by
  obtain ⟨h, m, s, ms, rfl, -, -, -, -, -, -, gh, gm, gs, gms⟩ := ht
  intro c hc
  rcases List.mem_append.mp hc with hc | hc
  · rcases List.mem_append.mp hc with hc | hc
    · rcases List.mem_append.mp hc with hc | hc
      · exact jsWs_of_isDigit (gh c hc)
      · rcases List.mem_cons.mp hc with rfl | hc
        · decide
        · exact jsWs_of_isDigit (gm c hc)
    · rcases List.mem_cons.mp hc with rfl | hc
      · decide
      · exact jsWs_of_isDigit (gs c hc)
  · rcases List.mem_cons.mp hc with rfl | hc
    · rcases hsep with rfl | rfl <;> decide
    · exact jsWs_of_isDigit (gms c hc)

/-- Characters of the main time part are digits or colons. -/
theorem mem_main_chars {h m s : List Char} (gh : ∀ c ∈ h, c.isDigit = true)
    (gm : ∀ c ∈ m, c.isDigit = true) (gs : ∀ c ∈ s, c.isDigit = true) :
    ∀ c ∈ h ++ ':' :: (m ++ ':' :: s), c.isDigit = true ∨ c = ':' := by
  intro c hc
  rcases List.mem_append.mp hc with hc | hc
  · exact Or.inl (gh c hc)
  · rcases List.mem_cons.mp hc with rfl | hc
    · exact Or.inr rfl
    · rcases List.mem_append.mp hc with hc | hc
      · exact Or.inl (gm c hc)
      · rcases List.mem_cons.mp hc with rfl | hc
        · exact Or.inr rfl
        · exact Or.inl (gs c hc)

/-- Evaluation of correctFormat once the first period (if any) has been
turned into the structural comma. -/
theorem correctFormat_eval {t h m s ms : List Char}
    (hrepl : replaceFirst '.' [','] t = h ++ ':' :: (m ++ ':' :: (s ++ ',' :: ms)))
    (gh : ∀ c ∈ h, c.isDigit = true) (gm : ∀ c ∈ m, c.isDigit = true)
    (gs : ∀ c ∈ s, c.isDigit = true) (gms : ∀ c ∈ ms, c.isDigit = true) :
    correctFormat t = some (fixedStrDigit 2 h false ++ ':' :: fixedStrDigit 2 m false
      ++ ':' :: fixedStrDigit 2 s false ++ ',' :: fixedStrDigit 3 ms true) := by
  have hmain : h ++ ':' :: (m ++ ':' :: (s ++ ',' :: ms)) =
      (h ++ ':' :: (m ++ ':' :: s)) ++ ',' :: ms := by
    simp
  have hnc : ',' ∉ h ++ ':' :: (m ++ ':' :: s) := by
    intro hmem
    rcases mem_main_chars gh gm gs _ hmem with hd | hcol
    · exact absurd hd (by decide)
    · exact absurd hcol (by decide)
  have hmsnc : ',' ∉ ms := by
    intro hmem
    exact absurd (gms _ hmem) (by decide)
  have hch : ':' ∉ h := by
    intro hmem
    exact absurd (gh _ hmem) (by decide)
  have hcm : ':' ∉ m := by
    intro hmem
    exact absurd (gm _ hmem) (by decide)
  have hcs : ':' ∉ s := by
    intro hmem
    exact absurd (gs _ hmem) (by decide)
  unfold correctFormat
  dsimp only
  rw [hrepl, hmain, splitOnChar_append hnc, splitOnChar_of_not_mem hmsnc]
  dsimp only
  rw [splitOnChar_append hch, splitOnChar_append hcm, splitOnChar_of_not_mem hcs]

/-- Characters of the main time part, stated over the left-nested append
the timestamp-shape predicates use. -/
theorem mem_main_chars_l {h m s : List Char} (gh : ∀ c ∈ h, c.isDigit = true)
    (gm : ∀ c ∈ m, c.isDigit = true) (gs : ∀ c ∈ s, c.isDigit = true) :
    ∀ c ∈ h ++ ':' :: m ++ ':' :: s, c.isDigit = true ∨ c = ':' := by
  intro c hc
  rcases List.mem_append.mp hc with hc | hc
  · rcases List.mem_append.mp hc with hc | hc
    · exact Or.inl (gh c hc)
    · rcases List.mem_cons.mp hc with rfl | hc
      · exact Or.inr rfl
      · exact Or.inl (gm c hc)
  · rcases List.mem_cons.mp hc with rfl | hc
    · exact Or.inr rfl
    · exact Or.inl (gs c hc)

/-- The head of a dropWhile result fails the predicate. -/
theorem dropWhile_head_false {p : Char → Bool} :
    ∀ {l : List Char} {c : Char} {rest : List Char},
      l.dropWhile p = c :: rest → p c = false := by
  intro l
  induction l with
  | nil =>
    intro c rest h
    exact absurd h (by simp [List.dropWhile])
  | cons d l' ih =>
    intro c rest h
    by_cases hd : p d = true
    · rw [List.dropWhile_cons_of_pos hd] at h
      exact ih h
    · rw [List.dropWhile_cons_of_neg hd] at h
      cases h
      simp only [Bool.not_eq_true] at hd
      exact hd

/-- dropWhile is idempotent. -/
theorem dropWhile_idem (p : Char → Bool) (l : List Char) :
    (l.dropWhile p).dropWhile p = l.dropWhile p := by
  rcases h : l.dropWhile p with _ | ⟨c, rest⟩
  · rfl
  · exact List.dropWhile_cons_of_neg (by simp [dropWhile_head_false h])

/-- trim is idempotent (the source re-trims already trimmed fields). -/
theorem trim_idem (s : List Char) : trim (trim s) = trim s := by
  rcases hu : s.dropWhile jsWs with _ | ⟨c, u'⟩
  · have h0 : trim s = [] := by
      unfold trim
      rw [hu]
      rfl
    rw [h0]
    rfl
  · have hc : jsWs c = false := dropWhile_head_false hu
    have htrim : trim s = ((c :: u').reverse.dropWhile jsWs).reverse := by
      unfold trim
      rw [hu]
    rcases hcase : ((c :: u').reverse.dropWhile jsWs).reverse with _ | ⟨d, t⟩
    · rw [htrim, hcase]
      rfl
    · obtain ⟨w, hw⟩ := dropWhile_suffix jsWs (c :: u').reverse
      have hcu : c :: u' = d :: (t ++ w.reverse) := by
        have h2 := congrArg List.reverse hw
        rw [List.reverse_reverse, List.reverse_append] at h2
        rw [hcase] at h2
        simpa using h2
      have hd : jsWs d = false := by
        have h1 : c = d := by injection hcu
        rw [← h1]
        exact hc
      rw [htrim, hcase]
      unfold trim
      rw [List.dropWhile_cons_of_neg (by simp [hd])]
      have h3 : (d :: t).reverse = (c :: u').reverse.dropWhile jsWs := by
        rw [← hcase, List.reverse_reverse]
      rw [h3, dropWhile_idem]
      exact hcase

/-- An all-digit string is unchanged by trim. -/
theorem trim_of_digits {s : List Char} (h : ∀ c ∈ s, c.isDigit = true) :
    trim s = s :=
  trim_eq_self (fun c hc => jsWs_of_isDigit (h c hc))

/-- A canonical timestamp is in particular a comma-pattern timestamp
capture. -/
theorem canonTs_isTsTok {t : List Char} (ht : IsCanonTs t) : IsTsTok ',' t := by
  obtain ⟨h, m, s, ms, heq, hlh, hlm, hls, hlms, gh, gm, gs, gms⟩ := ht
  exact ⟨h, m, s, ms, heq, by omega, by omega, hlm, hls, by omega, by omega,
    gh, gm, gs, gms⟩

/-- A timestamp capture is unchanged by trim. -/
theorem tsTok_trim {sep : Char} {t : List Char} (ht : IsTsTok sep t)
    (hsep : sep = ',' ∨ sep = '.') : trim t = t :=
  trim_eq_self (tsTok_not_ws ht hsep)

/-- correctFormat succeeds on every timestamp capture of either pattern
and returns a canonical timestamp. -/
theorem correctFormat_tsTok {sep : Char} {t : List Char} (ht : IsTsTok sep t)
    (hsep : sep = ',' ∨ sep = '.') :
    ∃ ct, correctFormat t = some ct ∧ IsCanonTs ct := by
  obtain ⟨h, m, s, ms, rfl, hh1, hh2, hlm, hls, hms1, hms2, gh, gm, gs, gms⟩ := ht
  have hmain_nd : '.' ∉ h ++ ':' :: m ++ ':' :: s := by
    intro hmem
    rcases mem_main_chars_l gh gm gs _ hmem with hd | hcol
    · exact absurd hd (by decide)
    · exact absurd hcol (by decide)
  have hrepl : replaceFirst '.' [','] (h ++ ':' :: m ++ ':' :: s ++ sep :: ms) =
      h ++ ':' :: (m ++ ':' :: (s ++ ',' :: ms)) := by
    rcases hsep with rfl | rfl
    · have hnm : '.' ∉ h ++ ':' :: m ++ ':' :: s ++ ',' :: ms := by
        intro hmem
        rcases List.mem_append.mp hmem with hmem | hmem
        · exact hmain_nd hmem
        · rcases List.mem_cons.mp hmem with hx | hmem
          · exact absurd hx (by decide)
          · exact absurd (gms _ hmem) (by decide)
      rw [replaceFirst_of_not_mem hnm]
      simp
    · rw [replaceFirst_append hmain_nd]
      simp
  obtain ⟨hlh2, hdh⟩ := fixedStrDigit_le (show h.length ≤ 2 by omega) gh false
  obtain ⟨hlm2, hdm⟩ := fixedStrDigit_le (le_of_eq hlm) gm false
  obtain ⟨hls2, hds⟩ := fixedStrDigit_le (le_of_eq hls) gs false
  obtain ⟨hlms2, hdms⟩ := fixedStrDigit_le hms2 gms true
  exact ⟨_, correctFormat_eval hrepl gh gm gs gms,
    _, _, _, _, rfl, hlh2, hlm2, hls2, hlms2, hdh, hdm, hds, hdms⟩

/-- correctFormat is the identity on canonical timestamps. -/
theorem correctFormat_canon {t : List Char} (ht : IsCanonTs t) :
    correctFormat t = some t := by
  obtain ⟨h, m, s, ms, rfl, hlh, hlm, hls, hlms, gh, gm, gs, gms⟩ := ht
  have hnm : '.' ∉ h ++ ':' :: m ++ ':' :: s ++ ',' :: ms := by
    intro hmem
    rcases List.mem_append.mp hmem with hmem | hmem
    · rcases mem_main_chars_l gh gm gs _ hmem with hd | hcol
      · exact absurd hd (by decide)
      · exact absurd hcol (by decide)
    · rcases List.mem_cons.mp hmem with hx | hmem
      · exact absurd hx (by decide)
      · exact absurd (gms _ hmem) (by decide)
  have hrepl : replaceFirst '.' [','] (h ++ ':' :: m ++ ':' :: s ++ ',' :: ms) =
      h ++ ':' :: (m ++ ':' :: (s ++ ',' :: ms)) := by
    rw [replaceFirst_of_not_mem hnm]
    simp
  rw [correctFormat_eval hrepl gh gm gs gms, fixedStrDigit_id hlh false,
    fixedStrDigit_id hlm false, fixedStrDigit_id hls false,
    fixedStrDigit_id hlms true]

/-- One-step unfolding of the caption-building loop on a full group. -/
theorem buildCaptions_cons (i0 i1 i2 i3 : List Char) (rest : List (List Char)) :
    buildCaptions (i0 :: i1 :: i2 :: i3 :: rest) =
      match correctFormat (trim i1), correctFormat (trim i2) with
      | some startTime, some endTime =>
        match buildCaptions rest with
        | some caps =>
          some ({ id := trim i0, startTime := startTime,
                  startSeconds := timestampToSeconds startTime,
                  endTime := endTime,
                  endSeconds := timestampToSeconds endTime,
                  text := trim i3 } :: caps)
        | none => none
      | _, _ => none := by
  conv_lhs => rw [buildCaptions]

/-- Characters of a trimmed string occur in the string. -/
theorem mem_of_trim {c : Char} {s : List Char} (h : c ∈ trim s) : c ∈ s := by
  obtain ⟨u, w, hs⟩ := trim_infix s
  rw [hs]
  exact List.mem_append.mpr (Or.inl (List.mem_append.mpr (Or.inr h)))

/-- The carriage-return strip leaves no carriage return behind. -/
theorem cr_not_mem_stripCR (data : List Char) : '\r' ∉ stripCR data := by
  intro h
  have h2 := List.of_mem_filter h
  simp at h2

/-- A no-match check over the positions of the input extends to all drop
offsets (past the end the input is empty and the matcher fails). -/
theorem noMatch_of_short {sep : Char} {xs : List Char}
    (h : (List.range xs.length).all (fun n => (matchAt sep (xs.drop n)).isNone) = true) :
    ∀ n, matchAt sep (xs.drop n) = none := by
  intro n
  rcases Nat.lt_or_ge n xs.length with hn | hn
  · have h2 := List.all_eq_true.mp h n (List.mem_range.mpr hn)
    exact Option.isNone_iff_eq_none.mp h2
  · rw [List.drop_eq_nil_of_le hn]
    exact matchAt_nil sep

/-- The caption-building loop succeeds on every token array of the group
shape and yields well-formed captions. -/
theorem buildCaptions_WF {sep : Char} {xs0 : List Char} {toks : List (List Char)}
    (hg : TokGroups sep xs0 toks) (hsep : sep = ',' ∨ sep = '.')
    (hbody : ∀ body, (∃ m w, xs0.drop m = body ++ w) → NoMatchSub sep body →
      NoMatchSub ',' body)
    (hcr : '\r' ∉ xs0) :
    ∃ l, buildCaptions toks = some l ∧ ∀ c ∈ l, WFCaption c := by
  induction hg with
  | nil =>
    refine ⟨[], rfl, ?_⟩
    intro c hc
    cases hc
  | @grp a t1 t2 body rest ha ht1 ht2 hnb hsl hrest ih =>
    obtain ⟨l', hbc', hwf'⟩ := ih
    obtain ⟨ct1, hcf1, hcanon1⟩ := correctFormat_tsTok ht1 hsep
    obtain ⟨ct2, hcf2, hcanon2⟩ := correctFormat_tsTok ht2 hsep
    have htr1 : trim t1 = t1 := tsTok_trim ht1 hsep
    have htr2 : trim t2 = t2 := tsTok_trim ht2 hsep
    have hbodymem : ∀ c ∈ body, c ∈ xs0 := by
      intro c hcb
      obtain ⟨m, w, hmw⟩ := hsl
      have hdp : c ∈ xs0.drop m := by
        rw [hmw]
        exact List.mem_append.mpr (Or.inl hcb)
      exact List.drop_subset m xs0 hdp
    refine ⟨{ id := trim a, startTime := ct1, startSeconds := timestampToSeconds ct1,
              endTime := ct2, endSeconds := timestampToSeconds ct2,
              text := trim body } :: l', ?_, ?_⟩
    · rw [buildCaptions_cons, htr1, htr2, hcf1, hcf2]
      dsimp only
      rw [hbc']
    · intro c hc
      rcases List.mem_cons.mp hc with rfl | hc
      · refine ⟨?_, hcanon1, hcanon2, rfl, rfl, trim_idem body, ?_, ?_⟩
        · show IsIdTok (trim a)
          rw [trim_of_digits ha.2]
          exact ha
        · show '\r' ∉ trim body
          intro hmem
          exact hcr (hbodymem _ (mem_of_trim hmem))
        · exact noMatchSub_trim (hbody body hsl hnb)
      · exact hwf' c hc

/-- parse always returns a value, and every caption it returns is
well-formed. -/
theorem parse_total_WF (data : List Char) :
    ∃ l, parse data = some l ∧ ∀ c ∈ l, WFCaption c := by
  have hcr : '\r' ∉ stripCR data := cr_not_mem_stripCR data
  obtain ⟨midc, toksc, heqc, hgc, hsubc, hnmc⟩ :=
    @regexSplitGo_shape ',' (stripCR data) (stripCR data).length (stripCR data) []
      le_rfl ⟨0, rfl⟩
  obtain ⟨midd, toksd, heqd, hgd, hsubd, hnmd⟩ :=
    @regexSplitGo_shape '.' (stripCR data) (stripCR data).length (stripCR data) []
      le_rfl ⟨0, rfl⟩
  have hpdc : parseData data ',' = toksc := by
    unfold parseData regexSplit
    rw [heqc]
    rfl
  have hpdd : parseData data '.' = toksd := by
    unfold parseData regexSplit
    rw [heqd]
    rfl
  by_cases hc : (parseData data ',').isEmpty = true
  · have hsingle : ∀ n, matchAt ',' ((stripCR data).drop n) = none := by
      have hte : toksc = [] := by
        have hc2 := hc
        rw [hpdc] at hc2
        cases toksc with
        | nil => rfl
        | cons t ts => exact absurd hc2 (by simp [List.isEmpty])
      have heqc2 : regexSplitGo ',' (stripCR data).length (stripCR data) [] =
          [List.reverse [] ++ midc] := by
        rw [heqc, hte]
      exact regexSplitGo_single_imp (stripCR data).length (stripCR data) []
        (List.reverse [] ++ midc) le_rfl heqc2
    by_cases hd : (parseData data '.').isEmpty = true
    · refine ⟨[], ?_, ?_⟩
      · unfold parse
        dsimp only
        rw [if_pos hc, if_pos hd]
      · intro c hcc
        cases hcc
    · have hp : parse data = buildCaptions (parseData data '.') := by
        unfold parse
        dsimp only
        rw [if_pos hc, if_neg hd]
      obtain ⟨l, hbc, hwf⟩ := buildCaptions_WF hgd (Or.inr rfl)
        (fun body hslb _ => by
          obtain ⟨m, w, hmw⟩ := hslb
          exact noMatchSub_of_slice hsingle hmw) hcr
      refine ⟨l, ?_, hwf⟩
      rw [hp, hpdd, hbc]
  · have hp : parse data = buildCaptions (parseData data ',') := by
      unfold parse
      dsimp only
      rw [if_neg hc, if_neg hc]
    obtain ⟨l, hbc, hwf⟩ := buildCaptions_WF hgc (Or.inl rfl)
      (fun _ _ hnb => hnb) hcr
    refine ⟨l, ?_, hwf⟩
    rw [hp, hpdc, hbc]

/-- C9: parse returns normally on every input (the TypeError branches of
the caption builder are unreachable, so the none value modelling a thrown
exception never occurs), and when neither the comma pattern nor the
period pattern matches anywhere in the carriage-return-stripped input it
returns the empty caption list. -/
theorem c9_parse_total (data : List Char) :
    (parse data).isSome = true ∧
      ((∀ n, matchAt ',' ((stripCR data).drop n) = none) →
       (∀ n, matchAt '.' ((stripCR data).drop n) = none) →
       parse data = some []) := by
  constructor
  · obtain ⟨l, hl, -⟩ := parse_total_WF data
    rw [hl]
    rfl
  · intro hcm hdm
    have hc : regexSplitGo ',' (stripCR data).length (stripCR data) [] =
        [stripCR data] := by
      have h1 := regexSplitGo_single (stripCR data).length (stripCR data) [] le_rfl hcm
      simpa using h1
    have hd : regexSplitGo '.' (stripCR data).length (stripCR data) [] =
        [stripCR data] := by
      have h1 := regexSplitGo_single (stripCR data).length (stripCR data) [] le_rfl hdm
      simpa using h1
    have hpd1 : parseData data ',' = [] := by
      unfold parseData regexSplit
      rw [hc]
      rfl
    have hpd2 : parseData data '.' = [] := by
      unfold parseData regexSplit
      rw [hd]
      rfl
    unfold parse
    dsimp only
    rw [hpd1, hpd2]
    rfl

/-- C9 at a concrete unparseable input. -/
theorem c9_witness :
    (parse ('h' :: ['i'])).isSome = true ∧ parse ('h' :: ['i']) = some [] :=
  ⟨(c9_parse_total ('h' :: ['i'])).1,
   (c9_parse_total ('h' :: ['i'])).2 (noMatch_of_short (by decide))
     (noMatch_of_short (by decide))⟩

/-! ## Building a match from a serialized caption (for the round trip) -/

/-- The bounded digit run consumes an exact-length digit group and stops. -/
theorem takeUpTo_exact : ∀ {n : ℕ} {a : List Char}, a.length = n →
    (∀ c ∈ a, c.isDigit = true) → ∀ v, takeUpTo n (a ++ v) = (a, v) := by
  intro n a
  induction a generalizing n with
  | nil =>
    intro hlen hd v
    have hn : n = 0 := by simpa using hlen.symm
    subst hn
    rw [List.nil_append]
    cases v with
    | nil => rfl
    | cons c w => rw [takeUpTo_eq_of_stop (Or.inl (by omega))]
  | cons c a' ih =>
    intro hlen hd v
    have hn : 0 < n := by
      rw [← hlen]
      simp
    rw [List.cons_append, takeUpTo_eq_of_pos hn (hd c (List.mem_cons_self c a')),
      ih (show a'.length = n - 1 by simp only [List.length_cons] at hlen; omega)
        (fun x hx => hd x (List.mem_cons_of_mem c hx)) v]

/-- The unbounded digit run consumes an all-digit group when a non-digit
follows. -/
theorem takeDigits_exact : ∀ {a : List Char}, (∀ c ∈ a, c.isDigit = true) →
    ∀ {v : List Char}, headIsDigit v = false → takeDigits (a ++ v) = (a, v) := by
  intro a
  induction a with
  | nil =>
    intro _ v hv
    rw [List.nil_append]
    cases v with
    | nil => rfl
    | cons c w =>
      have hc : c.isDigit = false := hv
      rw [takeDigits_cons, if_neg (by rw [hc]; decide)]
  | cons c a' ih =>
    intro hd v hv
    have hc : c.isDigit = true := hd c (List.mem_cons_self c a')
    rw [List.cons_append, takeDigits_cons, if_pos hc,
      ih (fun x hx => hd x (List.mem_cons_of_mem c hx)) hv]

/-- A literal consumes exactly itself from the head of the input. -/
theorem expectLit_consume : ∀ (lit v : List Char), expectLit lit (lit ++ v) = some v := by
  intro lit
  induction lit with
  | nil =>
    intro v
    rfl
  | cons l ls ih =>
    intro v
    rw [List.cons_append, expectLit_cons, if_pos (by simp), ih]

/-- One-character literal at the head of a cons. -/
theorem expectLit_single (l : Char) (v : List Char) : expectLit [l] (l :: v) = some v := by
  rw [expectLit_cons, if_pos (by simp)]
  rfl

/-- The timestamp matcher accepts a canonical timestamp wherever it
starts, leaving exactly the rest. -/
theorem matchTs_build {t : List Char} (ht : IsCanonTs t) (v : List Char) :
    matchTs ',' (t ++ v) = some (t, v) := by
  obtain ⟨h, m, s, ms, rfl, hlh, hlm, hls, hlms, gh, gm, gs, gms⟩ := ht
  have hre : (h ++ ':' :: m ++ ':' :: s ++ ',' :: ms) ++ v =
      h ++ ':' :: (m ++ ':' :: (s ++ ',' :: (ms ++ v))) := by
    simp
  rw [hre]
  unfold matchTs
  dsimp only
  rw [takeUpTo_exact hlh gh]
  dsimp only
  have hne : ¬(h.isEmpty = true) := by
    cases h with
    | nil => simp at hlh
    | cons x xs => simp [List.isEmpty]
  rw [if_neg hne, expectLit_single]
  dsimp only
  rw [takeUpTo_exact hlm gm]
  dsimp only
  rw [if_neg (by simp [hlm]), expectLit_single]
  dsimp only
  rw [takeUpTo_exact hls gs]
  dsimp only
  rw [if_neg (by simp [hls]), expectLit_single]
  dsimp only
  rw [takeUpTo_exact hlms gms]
  dsimp only
  have hne2 : ¬(ms.isEmpty = true) := by
    cases ms with
    | nil => simp at hlms
    | cons x xs => simp [List.isEmpty]
  rw [if_neg hne2]

/-- The cue-boundary matcher accepts a serialized caption head, capturing
the id and the two canonical timestamps and leaving exactly the rest. -/
theorem matchAt_build {a t1 t2 : List Char} (ha : IsIdTok a) (h1 : IsCanonTs t1)
    (h2 : IsCanonTs t2) (v : List Char) :
    matchAt ',' (a ++ '\n' :: (t1 ++ (arrowLit ++ (t2 ++ v)))) = some (a, t1, t2, v) := by
  unfold matchAt
  dsimp only
  rw [takeDigits_exact ha.2
    (show headIsDigit ('\n' :: (t1 ++ (arrowLit ++ (t2 ++ v)))) = false from rfl)]
  dsimp only
  have hne : ¬(a.isEmpty = true) := by
    cases a with
    | nil => exact absurd rfl ha.1
    | cons x xs => simp [List.isEmpty]
  rw [if_neg hne, expectLit_single]
  dsimp only
  rw [matchTs_build h1]
  dsimp only
  rw [expectLit_consume arrowLit]
  dsimp only
  rw [matchTs_build h2]

/-- The scanner walks over a match-free region, accumulating it
reversed. -/
theorem regexSplitGo_skip {sep : Char} :
    ∀ (J K : List Char), (∀ p < J.length, matchAt sep (J.drop p ++ K) = none) →
      ∀ (fuel : ℕ) (acc : List Char), J.length + K.length ≤ fuel →
        regexSplitGo sep fuel (J ++ K) acc =
          regexSplitGo sep (fuel - J.length) K (J.reverse ++ acc) := by
  intro J
  induction J with
  | nil =>
    intro K hnm fuel acc hlen
    rw [List.nil_append, List.length_nil, Nat.sub_zero, List.reverse_nil,
      List.nil_append]
  | cons c J' ih =>
    intro K hnm fuel acc hlen
    rcases fuel with _ | f
    · exfalso
      simp only [List.length_cons] at hlen
      omega
    · have hm0 : matchAt sep (c :: (J' ++ K)) = none := hnm 0 (by simp)
      rw [List.cons_append, regexSplitGo_succ_none hm0 f acc,
        ih K (fun p hp => hnm (p+1) (by simp only [List.length_cons]; omega)) f
          (c :: acc) (by simp only [List.length_cons] at hlen; omega)]
      have e1 : (f+1) - (c :: J').length = f - J'.length := by
        simp [List.length_cons]
      have e2 : (c :: J').reverse ++ acc = J'.reverse ++ (c :: acc) := by
        simp
      rw [e1, e2]

/-- No cue-boundary match starts inside a serialized caption body (the
leading newline, the match-free text, and the two separator newlines),
whatever follows it. -/
theorem body_no_match {text K : List Char} (hnm : NoMatchSub ',' text) :
    ∀ p < ('\n' :: (text ++ '\n' :: ['\n'])).length,
      matchAt ',' (('\n' :: (text ++ '\n' :: ['\n'])).drop p ++ K) = none := by
  intro p hp
  rcases p with _ | p
  · exact matchAt_cons_nondigit rfl
  · rw [List.drop_succ_cons]
    rcases Nat.lt_or_ge p (text.length + 1) with h | h
    · have hd : (text ++ '\n' :: ['\n']).drop p = text.drop p ++ '\n' :: ['\n'] :=
        List.drop_append_of_le_length (by omega)
      rw [hd, List.append_assoc]
      refine matchAt_junction_aux ?_ (hnm p)
      decide
    · have hp2 : p = text.length + 1 := by
        simp at hp
        omega
      subst hp2
      have hd : (text ++ '\n' :: ['\n']).drop (text.length + 1) = ['\n'] := by
        have hsplit : text ++ '\n' :: ['\n'] = (text ++ ['\n']) ++ ['\n'] := by
          simp
        rw [hsplit]
        have hlen2 : (text ++ ['\n']).length = text.length + 1 := by
          simp
        rw [← hlen2]
        exact List.drop_left _ _
      rw [hd]
      exact matchAt_cons_nondigit rfl

/-- A successful match at the head of a nonempty input drives the scanner
one step. -/
theorem regexSplitGo_match {sep : Char} {xs a t1 t2 rest' : List Char} {f : ℕ}
    (h : matchAt sep xs = some (a, t1, t2, rest')) (acc : List Char) (hx : xs ≠ []) :
    regexSplitGo sep (f + 1) xs acc =
      acc.reverse :: a :: t1 :: t2 :: regexSplitGo sep f rest' [] := by
  rcases xs with _ | ⟨x, xr⟩
  · exact absurd rfl hx
  · exact regexSplitGo_succ_some h f acc

/-- The splitter applied to the newline serialization of a well-formed
caption list: the leading chunk is the accumulator, and the tokens are
exactly the captured groups and bodies of each caption. -/
theorem scan_stringify : ∀ (l : List SRTCaption), (∀ c ∈ l, WFCaption c) →
    ∀ (fuel : ℕ) (acc : List Char), (stringify ['\n'] l).length ≤ fuel →
      regexSplitGo ',' fuel (stringify ['\n'] l) acc = acc.reverse :: TokensOf l := by
  intro l
  induction l with
  | nil =>
    intro _ fuel acc _
    show regexSplitGo ',' fuel [] acc = acc.reverse :: TokensOf []
    rw [regexSplitGo_nil]
    rfl
  | cons c rest ih =>
    intro hwf fuel acc hlen
    obtain ⟨hid, hc1, hc2, hs1, hs2, htr, hcrc, hnm⟩ := hwf c (List.mem_cons_self c rest)
    have hstr : stringify ['\n'] (c :: rest) =
        c.id ++ '\n' :: (c.startTime ++ (arrowLit ++ (c.endTime ++
          (('\n' :: (c.text ++ '\n' :: ['\n'])) ++ stringify ['\n'] rest)))) := by
      conv_lhs => rw [stringify]
      rw [replaceFirst_self]
      simp
    have hmatch : matchAt ',' (stringify ['\n'] (c :: rest)) =
        some (c.id, c.startTime, c.endTime,
          ('\n' :: (c.text ++ '\n' :: ['\n'])) ++ stringify ['\n'] rest) := by
      rw [hstr]
      exact matchAt_build hid hc1 hc2 _
    have hxne : stringify ['\n'] (c :: rest) ≠ [] := by
      rw [hstr]
      intro h0
      rcases List.append_eq_nil.mp h0 with ⟨-, h2⟩
      exact List.cons_ne_nil _ _ h2
    rcases fuel with _ | f
    · exact absurd (List.length_eq_zero.mp (Nat.le_zero.mp hlen)) hxne
    · have hflen : ('\n' :: (c.text ++ '\n' :: ['\n'])).length +
          (stringify ['\n'] rest).length ≤ f := by
        have h1 := hlen
        rw [hstr] at h1
        simp only [List.length_append, List.length_cons] at h1 ⊢
        omega
      rw [regexSplitGo_match hmatch acc hxne,
        regexSplitGo_skip ('\n' :: (c.text ++ '\n' :: ['\n'])) (stringify ['\n'] rest)
          (body_no_match hnm) f [] hflen,
        ih (fun x hx => hwf x (List.mem_cons_of_mem c hx)) _ _
          (by simp only [List.length_cons] at hflen ⊢; omega)]
      simp [TokensOf]

/-- The caption builder inverts the serializer on the token array of a
well-formed caption list. -/
theorem buildCaptions_TokensOf : ∀ (l : List SRTCaption), (∀ c ∈ l, WFCaption c) →
    buildCaptions (TokensOf l) = some l := by
  intro l
  induction l with
  | nil =>
    intro _
    rfl
  | cons c rest ih =>
    intro hwf
    obtain ⟨hid, hc1, hc2, hs1, hs2, htr, hcrc, hnm⟩ := hwf c (List.mem_cons_self c rest)
    have htok : TokensOf (c :: rest) = c.id :: c.startTime :: c.endTime ::
        ('\n' :: (c.text ++ '\n' :: ['\n'])) :: TokensOf rest := by
      simp [TokensOf]
    rw [htok, buildCaptions_cons,
      tsTok_trim (canonTs_isTsTok hc1) (Or.inl rfl),
      tsTok_trim (canonTs_isTsTok hc2) (Or.inl rfl),
      correctFormat_canon hc1, correctFormat_canon hc2]
    dsimp only
    rw [ih (fun x hx => hwf x (List.mem_cons_of_mem c hx))]
    dsimp only
    have htxt : trim ('\n' :: (c.text ++ '\n' :: ['\n'])) = c.text := by
      rw [trim_cons_ws (by decide)]
      have e : c.text ++ '\n' :: ['\n'] = (c.text ++ ['\n']) ++ ['\n'] := by
        simp
      rw [e, trim_append_ws (by decide), trim_append_ws (by decide), htr]
    rw [trim_of_digits hid.2, htxt, ← hs1, ← hs2]

/-- Digit strings hold no carriage return. -/
theorem cr_not_mem_digits {a : List Char} (h : ∀ c ∈ a, c.isDigit = true) :
    '\r' ∉ a :=
  fun hm => absurd (h _ hm) (by decide)

/-- Canonical timestamps hold no carriage return. -/
theorem cr_not_mem_canon {t : List Char} (ht : IsCanonTs t) : '\r' ∉ t := by
  obtain ⟨h, m, s, ms, rfl, -, -, -, -, gh, gm, gs, gms⟩ := ht
  intro hmem
  rcases List.mem_append.mp hmem with hmem | hmem
  · rcases mem_main_chars_l gh gm gs _ hmem with hd | hcol
    · exact absurd hd (by decide)
    · exact absurd hcol (by decide)
  · rcases List.mem_cons.mp hmem with hx | hmem
    · exact absurd hx (by decide)
    · exact absurd (gms _ hmem) (by decide)

/-- Stripping carriage returns turns the CRLF serialization of a
well-formed caption list into its newline serialization. -/
theorem stripCR_stringify : ∀ (l : List SRTCaption), (∀ c ∈ l, WFCaption c) →
    stripCR (stringify ('\r' :: ['\n']) l) = stringify ['\n'] l := by
  intro l
  induction l with
  | nil =>
    intro _
    rfl
  | cons c rest ih =>
    intro hwf
    obtain ⟨hid, hc1, hc2, -, -, -, hcrc, -⟩ := hwf c (List.mem_cons_self c rest)
    conv_lhs => rw [stringify]
    conv_rhs => rw [stringify]
    simp only [stripCR_append]
    rw [stripCR_of_not_mem (cr_not_mem_digits hid.2),
      stripCR_of_not_mem (cr_not_mem_canon hc1),
      stripCR_of_not_mem (cr_not_mem_canon hc2),
      stripCR_replaceFirst_crlf hcrc,
      ih (fun x hx => hwf x (List.mem_cons_of_mem c hx))]
    have h1 : stripCR ('\r' :: ['\n']) = ['\n'] := rfl
    have h2 : stripCR arrowLit = arrowLit := rfl
    rw [h1, h2, replaceFirst_self]

/-- parse looks at its input only through stripCR. -/
theorem parse_congr {d1 d2 : List Char} (h : stripCR d1 = stripCR d2) :
    parse d1 = parse d2 := by
  unfold parse parseData regexSplit
  rw [h]

/-- The newline serialization of a well-formed caption list re-parses to
exactly that list. -/
theorem parse_stringify_lf {l : List SRTCaption} (hwf : ∀ c ∈ l, WFCaption c) :
    parse (stringify ['\n'] l) = some l := by
  cases l with
  | nil => rfl
  | cons c rest =>
    have hcrfree : '\r' ∉ stringify ['\n'] (c :: rest) := by
      rw [← stripCR_stringify (c :: rest) hwf]
      exact cr_not_mem_stripCR _
    have hscan := scan_stringify (c :: rest) hwf
      (stringify ['\n'] (c :: rest)).length [] le_rfl
    have hpd : parseData (stringify ['\n'] (c :: rest)) ',' = TokensOf (c :: rest) := by
      unfold parseData regexSplit
      rw [stripCR_of_not_mem hcrfree, hscan]
      rfl
    have hne : ¬((parseData (stringify ['\n'] (c :: rest)) ',').isEmpty = true) := by
      rw [hpd]
      simp [TokensOf]
    have hp : parse (stringify ['\n'] (c :: rest)) =
        buildCaptions (parseData (stringify ['\n'] (c :: rest)) ',') := by
      unfold parse
      dsimp only
      rw [if_neg hne, if_neg hne]
    rw [hp, hpd, buildCaptions_TokensOf (c :: rest) hwf]

/-- C7: any caption list produced by parse, serialized with either
configured line terminator, re-parses to exactly the same list: same
ids, same canonical start and end timestamps (hence same seconds), same
text, position by position. -/
theorem c7_roundtrip {data eol : List Char} {l : List SRTCaption}
    (hp : parse data = some l) (heol : eol = ['\n'] ∨ eol = '\r' :: ['\n']) :
    parse (stringify eol l) = some l := by
  have hwf : ∀ c ∈ l, WFCaption c := by
    obtain ⟨l', hl', hwf'⟩ := parse_total_WF data
    rw [hp] at hl'
    injection hl' with h2
    subst h2
    exact hwf'
  rcases heol with rfl | rfl
  · exact parse_stringify_lf hwf
  · have hcrs : stripCR (stringify ('\r' :: ['\n']) l) = stringify ['\n'] l :=
      stripCR_stringify l hwf
    have hno : '\r' ∉ stringify ['\n'] l := by
      rw [← hcrs]
      exact cr_not_mem_stripCR _
    have h2 : stripCR (stringify ('\r' :: ['\n']) l) = stripCR (stringify ['\n'] l) := by
      rw [hcrs, stripCR_of_not_mem hno]
    rw [parse_congr h2]
    exact parse_stringify_lf hwf

/-- C7 at a concrete parsed document. -/
theorem c7_witness :
    parse (stringify ['\n']
      [⟨"1".toList, "00:00:01,000".toList,
        timestampToSeconds "00:00:01,000".toList, "00:00:02,000".toList,
        timestampToSeconds "00:00:02,000".toList, "Hello".toList⟩]) =
      some [⟨"1".toList, "00:00:01,000".toList,
        timestampToSeconds "00:00:01,000".toList, "00:00:02,000".toList,
        timestampToSeconds "00:00:02,000".toList, "Hello".toList⟩] :=
  c7_roundtrip
    (show parse ("1\n00:00:01,000 --> 00:00:02,000\nHello\n\n".toList) =
      some [⟨"1".toList, "00:00:01,000".toList,
        timestampToSeconds "00:00:01,000".toList, "00:00:02,000".toList,
        timestampToSeconds "00:00:02,000".toList, "Hello".toList⟩] from rfl)
    (Or.inl rfl)

end SubTools
